import Mathlib

/-!
# AVL-indexed record store: embedding and verification

Shallow embedding of `AVL_Database.cpp` / `AVL_Database.hpp`.

* A `Record*` is modelled by the record it points to (a key and a value); the
  pointer is assumed non-null, two records are the same when key and value agree.
* An `AVLNode*` is modelled by the subtree it points to, `AVLNode.nil` being
  `nullptr`.  The cached `height` field is part of a node.
* C++ `int` is modelled by `Int`.  The tree only compares values and adds one to
  heights, which stay far below `2^31`.  The counter `inv` and the distance
  `abs(value - key)` of `findKNearestKeys` are computed with 32-bit wrap-around.
* `std::sort` is a parameter of `findKNearestKeys`, constrained by what the C++
  standard promises of it; `StdSort.sort` follows the implementation of GCC's
  libstdc++ and is used where the behaviour of the built program on ties matters.
* Dereferencing a null child in `insertHelper` is undefined behaviour; the
  embedding returns `none` there, so `insertHelper`, `AVLTree.insert` and
  `IndexedDatabase.insert` are `Option`-valued.
* Releasing memory (`delete`) has no counterpart in the embedding.
-/

namespace AVLDatabase

/-- Class `Record`: the string `key` and the integer `value`. -/
structure Record where
  key : String
  value : Int
  deriving DecidableEq, Repr

/-- Class `AVLNode` seen through a pointer: `nil` is `nullptr`, `node` carries the
fields `record`, `left`, `right` and the cached `height`. -/
inductive AVLNode where
  | nil : AVLNode
  | node (record : Record) (left right : AVLNode) (height : Int) : AVLNode
  deriving DecidableEq, Repr

/-- Class `AVLTree`: the `root` pointer. -/
structure AVLTree where
  root : AVLNode
  deriving DecidableEq, Repr

/-- Class `IndexedDatabase`: the tree `index` and the counter `inv`. -/
structure IndexedDatabase where
  index : AVLTree
  inv : Int
  deriving DecidableEq, Repr

namespace AVLTree

/-- Constructor `AVLTree::AVLTree()`: the root is `nullptr`. -/
def empty : AVLTree := ⟨AVLNode.nil⟩

/-- `AVLTree::height`: the cached height of a node, `0` for `nullptr`. -/
def height : AVLNode → Int
  | AVLNode.nil => 0
  | AVLNode.node _ _ _ h => h

/-- `AVLTree::balance`: cached height of the left child minus that of the right
child, `0` for `nullptr`. -/
def balance : AVLNode → Int
  | AVLNode.nil => 0
  | AVLNode.node _ l r _ => height l - height r

/-- `AVLTree::rotateRight`: returns `y` itself when `y` or `y->left` is null;
otherwise the left child becomes the local root and the two heights are
recomputed, first that of `y`, then that of the new root. -/
def rotateRight : AVLNode → AVLNode
  | AVLNode.node yrec (AVLNode.node arec al ar _) yr _ =>
      let y := AVLNode.node yrec ar yr (max (height ar) (height yr) + 1)
      AVLNode.node arec al y (max (height al) (height y) + 1)
  | y => y

/-- `AVLTree::rotateLeft`: returns `x` itself when `x` or `x->right` is null;
otherwise the right child becomes the local root and the two heights are
recomputed, first that of `x`, then that of the new root. -/
def rotateLeft : AVLNode → AVLNode
  | AVLNode.node xrec xl (AVLNode.node arec al ar _) _ =>
      let x := AVLNode.node xrec xl al (max (height xl) (height al) + 1)
      AVLNode.node arec x ar (max (height x) (height ar) + 1)
  | x => x

/-- Lines 98-122 of `AVLTree::insertHelper`, run on the node with record `rec`
and children `l`, `r` after the recursive call: the height is recomputed, the
balance factor read, and one of the four rotation cases chosen by comparing the
inserted value with the value of the left or right child.  The tests
`node->left->record->value` are only evaluated when `bal > 1`, the tests
`node->right->record->value` only when `bal < -1` (short-circuit `&&`); on a
null child they dereference `nullptr`, which is `none` here. -/
def insertRebalance (rec : Record) (l r : AVLNode) (record : Record) : Option AVLNode :=
  let h := max (height l) (height r) + 1
  let node := AVLNode.node rec l r h
  let bal := balance node
  if bal > 1 then
    match l with
    | AVLNode.nil => none
    | AVLNode.node lrec _ _ _ =>
      if record.value < lrec.value then some (rotateRight node)
      else if record.value > lrec.value then
        some (rotateRight (AVLNode.node rec (rotateLeft l) r h))
      else some node
  else if bal < -1 then
    match r with
    | AVLNode.nil => none
    | AVLNode.node rrec _ _ _ =>
      if record.value < rrec.value then
        some (rotateLeft (AVLNode.node rec l (rotateRight r) h))
      else if record.value > rrec.value then some (rotateLeft node)
      else some node
  else some node

/-- `AVLTree::insertHelper`: a new leaf of height 1 at a null position, descent to
the left on a strictly smaller value, to the right on a strictly larger one, and
the node returned as it is on an equal value. -/
def insertHelper : AVLNode → Record → Option AVLNode
  | AVLNode.nil, record => some (AVLNode.node record AVLNode.nil AVLNode.nil 1)
  | AVLNode.node rec l r h, record =>
    if record.value < rec.value then
      (insertHelper l record).bind fun l' => insertRebalance rec l' r record
    else if record.value > rec.value then
      (insertHelper r record).bind fun r' => insertRebalance rec l r' record
    else some (AVLNode.node rec l r h)

/-- `AVLTree::insert`. -/
def insert (t : AVLTree) (record : Record) : Option AVLTree :=
  (insertHelper t.root record).map AVLTree.mk

/-- The `while` loop of `AVLTree::search`: `some` of the stored record when the
loop returns `cur->record`, `none` when the loop ends with `cur == nullptr`. -/
def searchLoop : AVLNode → String → Int → Option Record
  | AVLNode.nil, _, _ => none
  | AVLNode.node rec l r _, key, value =>
    if value = rec.value ∧ key = rec.key then some rec
    else if value > rec.value then searchLoop r key value
    else searchLoop l key value

/-- `AVLTree::search`: the record found by the loop, or else the freshly
allocated `Record("", 0)`. -/
def search (t : AVLTree) (key : String) (value : Int) : Record :=
  match searchLoop t.root key value with
  | some rec => rec
  | none => ⟨"", 0⟩

/-- The loop `while (temp->left != nullptr) temp = temp->left;` of
`deleteNodeHelper`, started at a node with record `rec` and left child `l`:
the record of the leftmost node. -/
def leftmost (rec : Record) : AVLNode → Record
  | AVLNode.nil => rec
  | AVLNode.node lrec ll _ _ => leftmost lrec ll

/-- Lines 180-209 of `AVLTree::deleteNodeHelper`: `nullptr` is returned as it
is; otherwise the height is recomputed and one of the four rotation cases chosen
by the balance factor of the left or right child. -/
def deleteRebalance : AVLNode → AVLNode
  | AVLNode.nil => AVLNode.nil
  | AVLNode.node rec l r _ =>
    let h := max (height l) (height r) + 1
    let root := AVLNode.node rec l r h
    let bal := balance root
    if bal > 1 ∧ balance l ≥ 0 then rotateRight root
    else if bal > 1 ∧ balance l < 0 then
      rotateRight (AVLNode.node rec (rotateLeft l) r h)
    else if bal < -1 ∧ balance r ≤ 0 then rotateLeft root
    else if bal < -1 ∧ balance r > 0 then
      rotateLeft (AVLNode.node rec l (rotateRight r) h)
    else root

/-- `AVLTree::deleteNodeHelper`.  The descent compares `value` only; the node
whose value equals `value` is removed whatever `key` is.  With at most one child
the node takes the contents of that child (`*root = *temp`) or becomes
`nullptr`; with two children its record is replaced by the record of the
leftmost node of the right subtree, which is then deleted from the right
subtree (the inner `match` only names the fields of `root->right`, which is not
null in that branch). -/
def deleteNodeHelper : AVLNode → String → Int → AVLNode
  | AVLNode.nil, _, _ => AVLNode.nil
  | AVLNode.node rec l r h, key, value =>
    if value < rec.value then
      deleteRebalance (AVLNode.node rec (deleteNodeHelper l key value) r h)
    else if value > rec.value then
      deleteRebalance (AVLNode.node rec l (deleteNodeHelper r key value) h)
    else if l = AVLNode.nil ∨ r = AVLNode.nil then
      deleteRebalance (if l ≠ AVLNode.nil then l else r)
    else
      match r with
      | AVLNode.nil => AVLNode.nil
      | AVLNode.node rrec rl _ _ =>
        let temp := leftmost rrec rl
        deleteRebalance (AVLNode.node temp l (deleteNodeHelper r temp.key temp.value) h)

/-- `AVLTree::deleteNode`. -/
def deleteNode (t : AVLTree) (key : String) (value : Int) : AVLTree :=
  ⟨deleteNodeHelper t.root key value⟩

/-- `AVLTree::inorderHelper`: `vec` is the vector filled so far. -/
def inorderHelper : AVLNode → List Record → List Record
  | AVLNode.nil, vec => vec
  | AVLNode.node rec l r _, vec => inorderHelper r (inorderHelper l vec ++ [rec])

/-- `AVLTree::inorderTraversal`. -/
def inorderTraversal (t : AVLTree) : List Record :=
  inorderHelper t.root []

end AVLTree

namespace IndexedDatabase

/-- Constructor `IndexedDatabase::IndexedDatabase()`: empty index, `inv = 0`. -/
def empty : IndexedDatabase := ⟨AVLTree.empty, 0⟩

/-- Value of a 32-bit `int` computation whose exact result is `x`: the
two's-complement representative of `x` in `[-2^31, 2^31)`.  It is `x` itself when
`x` is in that range. -/
def wrapInt (x : Int) : Int :=
  (x + 2147483648) % 4294967296 - 2147483648

/-- `IndexedDatabase::insert`: the counter is incremented (`inv++` on a 32-bit
`int`), then the record is handed to the tree. -/
def insert (db : IndexedDatabase) (record : Record) : Option IndexedDatabase :=
  (db.index.insert record).map fun t => ⟨t, wrapInt (db.inv + 1)⟩

/-- `IndexedDatabase::search`. -/
def search (db : IndexedDatabase) (key : String) (value : Int) : Record :=
  db.index.search key value

/-- `IndexedDatabase::deleteRecord`: the tree is searched first, and only when the
record returned has a non-empty key is the node deleted and the counter
decremented (`inv--` on a 32-bit `int`). -/
def deleteRecord (db : IndexedDatabase) (key : String) (value : Int) : IndexedDatabase :=
  let temp := db.index.search key value
  if temp.key ≠ "" then ⟨db.index.deleteNode key value, wrapInt (db.inv - 1)⟩ else db

/-- `IndexedDatabase::inorderTraversal`. -/
def inorderTraversal (db : IndexedDatabase) : List Record :=
  db.index.inorderTraversal

/-- `IndexedDatabase::rangeQuery`: the loop over the traversal, `result` being
the vector filled so far. -/
def rangeQuery (db : IndexedDatabase) (start stop : Int) : List Record :=
  db.index.inorderTraversal.foldl
    (fun result record =>
      if record.value ≥ start ∧ record.value ≤ stop then result ++ [record] else result) []

/-- `IndexedDatabase::clearDatabase`: the root is reset to `nullptr` and the
counter to `0`. -/
def clearDatabase (_db : IndexedDatabase) : IndexedDatabase :=
  ⟨⟨AVLNode.nil⟩, 0⟩

/-- `IndexedDatabase::countRecords`. -/
def countRecords (db : IndexedDatabase) : Int :=
  db.inv

/-- The expression `abs(record->value - key)` of `findKNearestKeys`, computed in
32-bit `int`: the subtraction wraps, and so does `abs` on `-2^31`. -/
def distance (value key : Int) : Int :=
  wrapInt (Int.natAbs (wrapInt (value - key)))

/-- What the C++ standard promises of `std::sort(first, last, comp)` for the
comparator `a.first < b.first` of `findKNearestKeys`: the output is a
rearrangement of the input in which no element is followed by one with a
strictly smaller first component.  The order of elements with equal first
components is not specified. -/
def IsStdSort (sort : List (Int × Record) → List (Int × Record)) : Prop :=
  ∀ l, (sort l).Perm l ∧ (sort l).Pairwise (fun a b => a.1 ≤ b.1)

/-- A sort that meets `IsStdSort` and keeps elements of equal distance in their
input order (insertion sort). -/
def stableSort (l : List (Int × Record)) : List (Int × Record) :=
  l.insertionSort (fun a b => a.1 ≤ b.1)

/-- A sort that meets `IsStdSort` and puts, among elements of equal distance, the
larger value first. -/
def tiesDescendingSort (l : List (Int × Record)) : List (Int × Record) :=
  l.insertionSort (fun a b => a.1 < b.1 ∨ (a.1 = b.1 ∧ b.2.value ≤ a.2.value))

/-- `IndexedDatabase::findKNearestKeys`, with `std::sort` as the parameter
`sort`: the pairs of distance and record of the traversal are sorted, the
records of the first `k` pairs (as many as there are; none when `k ≤ 0`) are
collected by the counting loop, and the collected vector is reversed. -/
def findKNearestKeys (sort : List (Int × Record) → List (Int × Record))
    (db : IndexedDatabase) (key k : Int) : List Record :=
  let inorder := db.index.inorderTraversal
  let distances := inorder.map fun record => (distance record.value key, record)
  let sorted := sort distances
  let result := (sorted.take k.toNat).map Prod.snd
  result.reverse

/-- The calls `insert(record)` for the records of a list, in the order of the
list, as a caller makes them one after the other. -/
def insertAll (db : IndexedDatabase) (records : List Record) : Option IndexedDatabase :=
  records.foldl (fun d record => d.bind fun d => d.insert record) (some db)

/-- The spec's description of `findKNearestKeys`: the traversal stably sorted by
ascending `|value - target|` (insertion sort keeps records of equal distance in
traversal order), cut to its first `max(k, 0)` records, reversed. -/
def findKNearestKeysSpec (db : IndexedDatabase) (target k : Int) : List Record :=
  ((db.inorderTraversal.insertionSort
      (fun a b => (a.value - target).natAbs ≤ (b.value - target).natAbs)).take
    (max k 0).toNat).reverse

end IndexedDatabase

/-! ## The `std::sort` of GCC's libstdc++

`std::sort` is not code of the repository.  The functions below follow
`bits/stl_algo.h` of GCC 12 (`__sort`, `__introsort_loop`,
`__unguarded_partition_pivot`, `__move_median_to_first`, `__unguarded_partition`,
`__final_insertion_sort`, `__insertion_sort`, `__unguarded_insertion_sort`,
`__unguarded_linear_insert`) on a vector held as a list, iterators being indices.
An access outside the vector is `none`.  The heap sort that `__introsort_loop`
falls back to when its depth limit reaches `0` is not modelled: `none` as well. -/

namespace StdSort

/-- The comparator passed to `std::sort` by `findKNearestKeys`:
`a.first < b.first`. -/
def comp (a b : Int × Record) : Bool :=
  decide (a.1 < b.1)

/-- `std::iter_swap(i, j)`. -/
def iterSwap (v : List (Int × Record)) (i j : Nat) : Option (List (Int × Record)) :=
  match v[i]?, v[j]? with
  | some a, some b => some ((v.set i b).set j a)
  | _, _ => none

/-- `__move_median_to_first(result, a, b, c, comp)`. -/
def moveMedianToFirst (v : List (Int × Record)) (result a b c : Nat) :
    Option (List (Int × Record)) :=
  match v[a]?, v[b]?, v[c]? with
  | some xa, some xb, some xc =>
    if comp xa xb then
      if comp xb xc then iterSwap v result b
      else if comp xa xc then iterSwap v result c
      else iterSwap v result a
    else if comp xa xc then iterSwap v result a
    else if comp xb xc then iterSwap v result c
    else iterSwap v result b
  | _, _, _ => none

/-- The loop `while (comp(first, pivot)) ++first;` of `__unguarded_partition`. -/
def scanUp : Nat → List (Int × Record) → Nat → Nat → Option Nat
  | 0, _, _, _ => none
  | fuel + 1, v, first, pivot =>
    match v[first]?, v[pivot]? with
    | some x, some p => if comp x p then scanUp fuel v (first + 1) pivot else some first
    | _, _ => none

/-- The loop `while (comp(pivot, last)) --last;` of `__unguarded_partition`. -/
def scanDown : Nat → List (Int × Record) → Nat → Nat → Option Nat
  | 0, _, _, _ => none
  | fuel + 1, v, last, pivot =>
    match v[last]?, v[pivot]? with
    | some x, some p =>
      if comp p x then
        match last with
        | 0 => none
        | l + 1 => scanDown fuel v l pivot
      else some last
    | _, _ => none

/-- `__unguarded_partition(first, last, pivot, comp)`: the vector after the swaps
and the returned iterator. -/
def unguardedPartition :
    Nat → List (Int × Record) → Nat → Nat → Nat → Option (List (Int × Record) × Nat)
  | 0, _, _, _, _ => none
  | fuel + 1, v, first, last, pivot =>
    match scanUp (v.length + 1) v first pivot with
    | none => none
    | some first =>
      match last with
      | 0 => none
      | l + 1 =>
        match scanDown (v.length + 1) v l pivot with
        | none => none
        | some last =>
          if first < last then
            match iterSwap v first last with
            | none => none
            | some v => unguardedPartition fuel v (first + 1) last pivot
          else some (v, first)

/-- `__unguarded_partition_pivot(first, last, comp)`. -/
def unguardedPartitionPivot (v : List (Int × Record)) (first last : Nat) :
    Option (List (Int × Record) × Nat) :=
  let mid := first + (last - first) / 2
  match moveMedianToFirst v first (first + 1) mid (last - 1) with
  | none => none
  | some v => unguardedPartition (v.length + 1) v (first + 1) last first

/-- `__introsort_loop(first, last, depth_limit, comp)`: the `while` loop goes on
with `last = cut` after the recursive call on `[cut, last)`. -/
def introsortLoop :
    Nat → List (Int × Record) → Nat → Nat → Nat → Option (List (Int × Record))
  | 0, _, _, _, _ => none
  | fuel + 1, v, first, last, depthLimit =>
    if last - first > 16 then
      match depthLimit with
      | 0 => none
      | d + 1 =>
        match unguardedPartitionPivot v first last with
        | none => none
        | some (v, cut) =>
          match introsortLoop fuel v cut last d with
          | none => none
          | some v => introsortLoop fuel v first cut d
    else some v

/-- `__unguarded_linear_insert(last, comp)` for the value `val` taken from
position `last`. -/
def unguardedLinearInsert :
    Nat → List (Int × Record) → Int × Record → Nat → Option (List (Int × Record))
  | 0, _, _, _ => none
  | fuel + 1, v, val, last =>
    match last with
    | 0 => none
    | next + 1 =>
      match v[next]? with
      | none => none
      | some x =>
        if comp val x then unguardedLinearInsert fuel (v.set (next + 1) x) val next
        else some (v.set (next + 1) val)

/-- The `for` loop of `__insertion_sort(first, last, comp)` from position `i`,
for `count` more positions. -/
def insertionSortLoop :
    Nat → List (Int × Record) → Nat → Nat → Option (List (Int × Record))
  | 0, v, _, _ => some v
  | count + 1, v, first, i =>
    match v[i]?, v[first]? with
    | some xi, some xf =>
      if comp xi xf then
        insertionSortLoop count
          (v.take first ++ xi :: ((v.drop first).take (i - first) ++ v.drop (i + 1)))
          first (i + 1)
      else
        match unguardedLinearInsert (v.length + 1) v xi i with
        | none => none
        | some v => insertionSortLoop count v first (i + 1)
    | _, _ => none

/-- `__insertion_sort(first, last, comp)`. -/
def insertionSort (v : List (Int × Record)) (first last : Nat) :
    Option (List (Int × Record)) :=
  if first = last then some v else insertionSortLoop (last - first - 1) v first (first + 1)

/-- The `for` loop of `__unguarded_insertion_sort` from position `i`, for `count`
more positions. -/
def unguardedInsertionSortLoop :
    Nat → List (Int × Record) → Nat → Option (List (Int × Record))
  | 0, v, _ => some v
  | count + 1, v, i =>
    match v[i]? with
    | none => none
    | some val =>
      match unguardedLinearInsert (v.length + 1) v val i with
      | none => none
      | some v => unguardedInsertionSortLoop count v (i + 1)

/-- `__final_insertion_sort(first, last, comp)`. -/
def finalInsertionSort (v : List (Int × Record)) (first last : Nat) :
    Option (List (Int × Record)) :=
  if last - first > 16 then
    match insertionSort v first (first + 16) with
    | none => none
    | some v => unguardedInsertionSortLoop (last - (first + 16)) v (first + 16)
  else insertionSort v first last

/-- `std::__lg(n)`: the base-2 logarithm of `n`, rounded down. -/
def lg : Nat → Nat → Nat
  | 0, _ => 0
  | fuel + 1, n => if n ≥ 2 then lg fuel (n / 2) + 1 else 0

/-- `__sort(first, last, comp)` on the whole vector. -/
def sortModel (v : List (Int × Record)) : Option (List (Int × Record)) :=
  if v.length = 0 then some v
  else
    match introsortLoop (v.length + 1) v 0 v.length (lg v.length v.length * 2) with
    | none => none
    | some v => finalInsertionSort v 0 v.length

/-- `std::sort` of libstdc++ as a function on vectors; where `sortModel` gives no
result the vector is returned as it is. -/
def sort (v : List (Int × Record)) : List (Int × Record) :=
  match sortModel v with
  | some r => r
  | none => v

end StdSort

/-! ## Specification vocabulary -/

namespace AVLNode

/-- Structural height: `0` for the empty subtree, `1` for a leaf. -/
def structHeight : AVLNode → Nat
  | nil => 0
  | node _ l r _ => max (structHeight l) (structHeight r) + 1

/-- Records of a subtree, left subtree first, then the node, then the right
subtree. -/
def toList : AVLNode → List Record
  | nil => []
  | node rec l r _ => toList l ++ rec :: toList r

/-- Number of nodes of a subtree. -/
def size : AVLNode → Nat
  | nil => 0
  | node _ l r _ => size l + size r + 1

/-- Balance invariant: at every node the structural heights of the two subtrees
differ by at most one. -/
def Balanced : AVLNode → Prop
  | nil => True
  | node _ l r _ =>
      Balanced l ∧ Balanced r ∧ |(structHeight l : Int) - (structHeight r : Int)| ≤ 1

/-- Every cached `height` field equals one plus the larger height of the two
children, hence the structural height of its node. -/
def HeightsCached : AVLNode → Prop
  | nil => True
  | node _ l r h =>
      HeightsCached l ∧ HeightsCached r ∧
        h = ((max (structHeight l) (structHeight r) + 1 : Nat) : Int)

/-- Every cached `height` field equals one plus the larger cached height of the
two children, read with `AVLTree::height` (`0` for an absent child). -/
def HeightsLocal : AVLNode → Prop
  | nil => True
  | node _ l r h =>
      HeightsLocal l ∧ HeightsLocal r ∧ h = 1 + max (AVLTree.height l) (AVLTree.height r)

/-- Search-tree ordering on `value`: every value of the left subtree is strictly
smaller than the value of the node, every value of the right subtree strictly
larger. -/
def Ordered : AVLNode → Prop
  | nil => True
  | node rec l r _ =>
      Ordered l ∧ Ordered r ∧ (∀ x ∈ toList l, x.value < rec.value) ∧
        (∀ x ∈ toList r, rec.value < x.value)

/-- Cached heights and balance together, in the form used by the proofs. -/
def Avl : AVLNode → Prop
  | nil => True
  | node _ l r h =>
      Avl l ∧ Avl r ∧ h = ((max (structHeight l) (structHeight r) + 1 : Nat) : Int) ∧
        structHeight l ≤ structHeight r + 1 ∧ structHeight r ≤ structHeight l + 1

/-- The subtree `t` is a node whose record compares with `record` on the side
that is the taller one: the side an insertion of `record` descends into. -/
def Heavy (record : Record) : AVLNode → Prop
  | nil => False
  | node rec l r _ =>
      (record.value < rec.value ∧ structHeight l = structHeight r + 1) ∨
        (record.value > rec.value ∧ structHeight r = structHeight l + 1)

end AVLNode

namespace AVLTree

/-- Trees reachable from the empty tree by calls of `insert` and `deleteNode`. -/
inductive Reachable : AVLTree → Prop
  | empty : Reachable AVLTree.empty
  | insert {t t' : AVLTree} (record : Record) :
      Reachable t → t.insert record = some t' → Reachable t'
  | deleteNode {t : AVLTree} (key : String) (value : Int) :
      Reachable t → Reachable (t.deleteNode key value)

end AVLTree

namespace IndexedDatabase

/-- Databases reachable from the empty database by calls of `insert`,
`deleteRecord` and `clearDatabase`. -/
inductive Reachable : IndexedDatabase → Prop
  | empty : Reachable IndexedDatabase.empty
  | insert {db db' : IndexedDatabase} (record : Record) :
      Reachable db → db.insert record = some db' → Reachable db'
  | deleteRecord {db : IndexedDatabase} (key : String) (value : Int) :
      Reachable db → Reachable (db.deleteRecord key value)
  | clearDatabase {db : IndexedDatabase} :
      Reachable db → Reachable db.clearDatabase

/-- Databases reachable with `n` calls of `insert` since the construction or the
last `clearDatabase`. -/
inductive ReachableIn : Nat → IndexedDatabase → Prop
  | empty : ReachableIn 0 IndexedDatabase.empty
  | insert {n : Nat} {db db' : IndexedDatabase} (record : Record) :
      ReachableIn n db → db.insert record = some db' → ReachableIn (n + 1) db'
  | deleteRecord {n : Nat} {db : IndexedDatabase} (key : String) (value : Int) :
      ReachableIn n db → ReachableIn n (db.deleteRecord key value)
  | clearDatabase {n : Nat} {db : IndexedDatabase} :
      ReachableIn n db → ReachableIn 0 db.clearDatabase

end IndexedDatabase

/-! ## Instrumented copies of the rebalancing code

The functions below follow `insertHelper` and `deleteNodeHelper` line by line
and return `none` as soon as a rotation is called on an argument for which its
guard `y == nullptr || y->left == nullptr` (or the mirrored one) would fire, or
a child that is read in a case test is absent. -/

namespace AVLTree

/-- `rotateRight`, with `none` when the guard for an absent node or left child
fires. -/
def rotateRightChecked : AVLNode → Option AVLNode
  | AVLNode.node yrec (AVLNode.node arec al ar ah) yr yh =>
      some (rotateRight (AVLNode.node yrec (AVLNode.node arec al ar ah) yr yh))
  | _ => none

/-- `rotateLeft`, with `none` when the guard for an absent node or right child
fires. -/
def rotateLeftChecked : AVLNode → Option AVLNode
  | AVLNode.node xrec xl (AVLNode.node arec al ar ah) xh =>
      some (rotateLeft (AVLNode.node xrec xl (AVLNode.node arec al ar ah) xh))
  | _ => none

/-- Lines 98-122 of `insertHelper` with checked rotations. -/
def insertRebalanceChecked (rec : Record) (l r : AVLNode) (record : Record) :
    Option AVLNode :=
  let h := max (height l) (height r) + 1
  let node := AVLNode.node rec l r h
  let bal := balance node
  if bal > 1 then
    match l with
    | AVLNode.nil => none
    | AVLNode.node lrec _ _ _ =>
      if record.value < lrec.value then rotateRightChecked node
      else if record.value > lrec.value then
        (rotateLeftChecked l).bind fun l' => rotateRightChecked (AVLNode.node rec l' r h)
      else some node
  else if bal < -1 then
    match r with
    | AVLNode.nil => none
    | AVLNode.node rrec _ _ _ =>
      if record.value < rrec.value then
        (rotateRightChecked r).bind fun r' => rotateLeftChecked (AVLNode.node rec l r' h)
      else if record.value > rrec.value then rotateLeftChecked node
      else some node
  else some node

/-- `insertHelper` with checked rotations and child reads. -/
def insertHelperChecked : AVLNode → Record → Option AVLNode
  | AVLNode.nil, record => some (AVLNode.node record AVLNode.nil AVLNode.nil 1)
  | AVLNode.node rec l r h, record =>
    if record.value < rec.value then
      (insertHelperChecked l record).bind fun l' => insertRebalanceChecked rec l' r record
    else if record.value > rec.value then
      (insertHelperChecked r record).bind fun r' => insertRebalanceChecked rec l r' record
    else some (AVLNode.node rec l r h)

/-- Lines 180-209 of `deleteNodeHelper` with checked rotations; `none` also when
`balance(root->left)` or `balance(root->right)` would be read on an absent
child. -/
def deleteRebalanceChecked : AVLNode → Option AVLNode
  | AVLNode.nil => some AVLNode.nil
  | AVLNode.node rec l r _ =>
    let h := max (height l) (height r) + 1
    let root := AVLNode.node rec l r h
    let bal := balance root
    if bal > 1 then
      match l with
      | AVLNode.nil => none
      | AVLNode.node _ _ _ _ =>
        if balance l ≥ 0 then rotateRightChecked root
        else (rotateLeftChecked l).bind fun l' => rotateRightChecked (AVLNode.node rec l' r h)
    else if bal < -1 then
      match r with
      | AVLNode.nil => none
      | AVLNode.node _ _ _ _ =>
        if balance r ≤ 0 then rotateLeftChecked root
        else (rotateRightChecked r).bind fun r' => rotateLeftChecked (AVLNode.node rec l r' h)
    else some root

/-- `deleteNodeHelper` with checked rotations and child reads. -/
def deleteNodeHelperChecked : AVLNode → String → Int → Option AVLNode
  | AVLNode.nil, _, _ => some AVLNode.nil
  | AVLNode.node rec l r h, key, value =>
    if value < rec.value then
      (deleteNodeHelperChecked l key value).bind fun l' =>
        deleteRebalanceChecked (AVLNode.node rec l' r h)
    else if value > rec.value then
      (deleteNodeHelperChecked r key value).bind fun r' =>
        deleteRebalanceChecked (AVLNode.node rec l r' h)
    else if l = AVLNode.nil ∨ r = AVLNode.nil then
      deleteRebalanceChecked (if l ≠ AVLNode.nil then l else r)
    else
      match r with
      | AVLNode.nil => some AVLNode.nil
      | AVLNode.node rrec rl _ _ =>
        let temp := leftmost rrec rl
        (deleteNodeHelperChecked r temp.key temp.value).bind fun r' =>
          deleteRebalanceChecked (AVLNode.node temp l r' h)

end AVLTree

/-! ## Sample states -/

namespace Sample

/-- The tree after `insert(("a", 1))` on the empty tree. -/
def t1 : AVLTree := ⟨AVLNode.node ⟨"a", 1⟩ AVLNode.nil AVLNode.nil 1⟩

/-- The tree after `insert(("b", 2))` on `t1`. -/
def t2 : AVLTree :=
  ⟨AVLNode.node ⟨"a", 1⟩ AVLNode.nil (AVLNode.node ⟨"b", 2⟩ AVLNode.nil AVLNode.nil 1) 2⟩

/-- The tree after `insert(("c", 3))` on `t2`: a left rotation at the root. -/
def t3 : AVLTree :=
  ⟨AVLNode.node ⟨"b", 2⟩ (AVLNode.node ⟨"a", 1⟩ AVLNode.nil AVLNode.nil 1)
    (AVLNode.node ⟨"c", 3⟩ AVLNode.nil AVLNode.nil 1) 2⟩

/-- The database after `insert(("a", 1))` on the empty database. -/
def db1 : IndexedDatabase := ⟨t1, 1⟩

/-- The database after `insert(("b", 1))` on `db1`: same tree, counter 2. -/
def dbDup : IndexedDatabase := ⟨t1, 2⟩

/-- The database after the inserts of `("a", 1)`, `("b", 2)`, `("c", 3)`. -/
def db3 : IndexedDatabase := ⟨t3, 3⟩

/-- The database after `insert(("", 5))` on the empty database. -/
def dbEmptyKey : IndexedDatabase :=
  ⟨⟨AVLNode.node ⟨"", 5⟩ AVLNode.nil AVLNode.nil 1⟩, 1⟩

/-- The database after the inserts of `("a", 10)`, `("b", 20)`, `("c", 5)`,
`("d", 6)`, `("e", 15)`, in that order, on the empty database. -/
def scenario : IndexedDatabase :=
  ⟨⟨AVLNode.node ⟨"a", 10⟩
      (AVLNode.node ⟨"c", 5⟩ AVLNode.nil (AVLNode.node ⟨"d", 6⟩ AVLNode.nil AVLNode.nil 1) 2)
      (AVLNode.node ⟨"b", 20⟩ (AVLNode.node ⟨"e", 15⟩ AVLNode.nil AVLNode.nil 1) AVLNode.nil 2)
      3⟩, 5⟩

/-- The database after the inserts of `("p", 8)` and `("q", 10)`. -/
def dbTie : IndexedDatabase :=
  ⟨⟨AVLNode.node ⟨"p", 8⟩ AVLNode.nil (AVLNode.node ⟨"q", 10⟩ AVLNode.nil AVLNode.nil 1) 2⟩, 2⟩

/-- The database after `2^31` calls `insert(("a", 1))` on the empty database:
the tree holds the one record, the 32-bit counter has wrapped. -/
def dbWrapped : IndexedDatabase := ⟨t1, -2147483648⟩

/-- The database after the inserts of `("a", 2147483647)` and `("b", 0)`. -/
def dbFar : IndexedDatabase :=
  ⟨⟨AVLNode.node ⟨"a", 2147483647⟩ (AVLNode.node ⟨"b", 0⟩ AVLNode.nil AVLNode.nil 1)
      AVLNode.nil 2⟩, 2⟩

end Sample

/-! ## Traversal and rotations -/

open AVLNode AVLTree

theorem inorderHelper_eq (t : AVLNode) (vec : List Record) :
    inorderHelper t vec = vec ++ t.toList := by
  induction t generalizing vec with
  | nil => simp [inorderHelper, toList]
  | node rec l r h ihl ihr => simp [inorderHelper, toList, ihl, ihr]

theorem inorderTraversal_eq (t : AVLTree) : t.inorderTraversal = t.root.toList := by
  simp [inorderTraversal, inorderHelper_eq]

theorem toList_rotateRight (t : AVLNode) : (rotateRight t).toList = t.toList := by
  unfold rotateRight
  split <;> simp [toList]

theorem toList_rotateLeft (t : AVLNode) : (rotateLeft t).toList = t.toList := by
  unfold rotateLeft
  split <;> simp [toList]

theorem height_nil : height nil = 0 := rfl

theorem height_node (rec : Record) (l r : AVLNode) (h : Int) :
    height (node rec l r h) = h := rfl

theorem balance_node (rec : Record) (l r : AVLNode) (h : Int) :
    balance (node rec l r h) = height l - height r := rfl

theorem height_eq_of_avl {t : AVLNode} (h : t.Avl) : height t = (t.structHeight : Int) := by
  cases t with
  | nil => simp [height, structHeight]
  | node rec l r c => simp only [Avl] at h; simp [height, structHeight, h.2.2.1]

/-! ## Insertion keeps heights and balance -/

theorem avl_node_iff (rec : Record) (l r : AVLNode) (h : Int) :
    (node rec l r h).Avl ↔ l.Avl ∧ r.Avl ∧
      h = ((max l.structHeight r.structHeight + 1 : Nat) : Int) ∧
      l.structHeight ≤ r.structHeight + 1 ∧ r.structHeight ≤ l.structHeight + 1 := by
  simp [Avl]

theorem insertRebalance_toList {rec record : Record} {l r t : AVLNode}
    (h : insertRebalance rec l r record = some t) :
    t.toList = l.toList ++ rec :: r.toList := by
  unfold insertRebalance at h
  simp only at h
  split at h
  · split at h
    · simp at h
    · split at h
      · simp only [Option.some.injEq] at h
        rw [← h, toList_rotateRight, toList]
      · split at h
        · simp only [Option.some.injEq] at h
          rw [← h, toList_rotateRight, toList, toList_rotateLeft]
        · simp only [Option.some.injEq] at h
          rw [← h, toList]
  · split at h
    · split at h
      · simp at h
      · split at h
        · simp only [Option.some.injEq] at h
          rw [← h, toList_rotateLeft, toList, toList_rotateRight]
        · split at h
          · simp only [Option.some.injEq] at h
            rw [← h, toList_rotateLeft, toList]
          · simp only [Option.some.injEq] at h
            rw [← h, toList]
    · simp only [Option.some.injEq] at h
      rw [← h, toList]

theorem insertRebalance_balanced (rec record : Record) {l r : AVLNode}
    (hl : l.Avl) (hr : r.Avl) (h1 : l.structHeight ≤ r.structHeight + 1)
    (h2 : r.structHeight ≤ l.structHeight + 1) :
    insertRebalance rec l r record =
      some (node rec l r (max (height l) (height r) + 1)) := by
  unfold insertRebalance
  simp only [balance_node, height_eq_of_avl hl, height_eq_of_avl hr]
  rw [if_neg (by omega), if_neg (by omega)]

theorem insertRebalance_left (rec record : Record) {l r : AVLNode}
    (hl : l.Avl) (hr : r.Avl) (h : l.structHeight = r.structHeight + 2)
    (hv : l.Heavy record) :
    ∃ t, insertRebalance rec l r record = some t ∧ t.Avl ∧
      t.structHeight = l.structHeight := by
  cases l with
  | nil => simp [Heavy] at hv
  | node lrec ll lr lh =>
    rw [avl_node_iff] at hl
    obtain ⟨hll, hlr, hlh, hb1, hb2⟩ := hl
    have ell := height_eq_of_avl hll
    have elr := height_eq_of_avl hlr
    have er := height_eq_of_avl hr
    simp only [structHeight] at h
    simp only [Heavy] at hv
    unfold insertRebalance
    simp only [balance_node, height_node, er, hlh]
    rw [if_pos (by push_cast; omega)]
    rcases hv with ⟨hlt, hh⟩ | ⟨hgt, hh⟩
    · simp only [hlt, if_true, rotateRight, height_node, ell, elr, er]
      refine ⟨_, rfl, ?_, ?_⟩
      · simp only [avl_node_iff, structHeight]
        refine ⟨hll, ⟨hlr, hr, ?_, ?_, ?_⟩, ?_, ?_, ?_⟩ <;> (push_cast; omega)
      · (try simp only [structHeight]); omega
    · have hnlt : ¬ record.value < lrec.value := by omega
      simp only [hnlt, if_false, hgt, if_true]
      cases lr with
      | nil => simp [structHeight] at hh
      | node mrec ml mr mh =>
        rw [avl_node_iff] at hlr
        obtain ⟨hml, hmr, hmh, hm1, hm2⟩ := hlr
        have eml := height_eq_of_avl hml
        have emr := height_eq_of_avl hmr
        simp only [structHeight] at h hh hb1 hb2
        simp only [rotateLeft, rotateRight, height_node, ell, eml, emr, er]
        refine ⟨_, rfl, ?_, ?_⟩
        · simp only [avl_node_iff, structHeight]
          refine ⟨⟨hll, hml, ?_, ?_, ?_⟩, ⟨hmr, hr, ?_, ?_, ?_⟩, ?_, ?_, ?_⟩ <;>
            (push_cast; omega)
        · (try simp only [structHeight]); omega

theorem insertRebalance_right (rec record : Record) {l r : AVLNode}
    (hl : l.Avl) (hr : r.Avl) (h : r.structHeight = l.structHeight + 2)
    (hv : r.Heavy record) :
    ∃ t, insertRebalance rec l r record = some t ∧ t.Avl ∧
      t.structHeight = r.structHeight := by
  cases r with
  | nil => simp [Heavy] at hv
  | node rrec rl rr rh =>
    rw [avl_node_iff] at hr
    obtain ⟨hrl, hrr, hrh, hb1, hb2⟩ := hr
    have erl := height_eq_of_avl hrl
    have err := height_eq_of_avl hrr
    have el := height_eq_of_avl hl
    simp only [structHeight] at h
    simp only [Heavy] at hv
    unfold insertRebalance
    simp only [balance_node, height_node, el, hrh]
    rw [if_neg (by push_cast; omega), if_pos (by push_cast; omega)]
    rcases hv with ⟨hlt, hh⟩ | ⟨hgt, hh⟩
    · simp only [hlt, if_true]
      cases rl with
      | nil => simp [structHeight] at hh
      | node mrec ml mr mh =>
        rw [avl_node_iff] at hrl
        obtain ⟨hml, hmr, hmh, hm1, hm2⟩ := hrl
        have eml := height_eq_of_avl hml
        have emr := height_eq_of_avl hmr
        simp only [structHeight] at h hh hb1 hb2
        simp only [rotateLeft, rotateRight, height_node, err, eml, emr, el]
        refine ⟨_, rfl, ?_, ?_⟩
        · simp only [avl_node_iff, structHeight]
          refine ⟨⟨hl, hml, ?_, ?_, ?_⟩, ⟨hmr, hrr, ?_, ?_, ?_⟩, ?_, ?_, ?_⟩ <;>
            (push_cast; omega)
        · (try simp only [structHeight]); omega
    · have hnlt : ¬ record.value < rrec.value := by omega
      simp only [hnlt, if_false, hgt, if_true, rotateLeft, height_node, erl, err, el]
      refine ⟨_, rfl, ?_, ?_⟩
      · simp only [avl_node_iff, structHeight]
        refine ⟨⟨hl, hrl, ?_, ?_, ?_⟩, hrr, ?_, ?_, ?_⟩ <;> (push_cast; omega)
      · (try simp only [structHeight]); omega

/-- Insertion into a subtree with correct cached heights and balance returns a
subtree of the same kind, whose height is the old one or one more; when the
height grew and the subtree was not empty, the new root is heavy on the side
the record went to. -/
theorem insertHelper_avl (record : Record) (t : AVLNode) (ht : t.Avl) :
    ∃ t', insertHelper t record = some t' ∧ t'.Avl ∧
      (t'.structHeight = t.structHeight ∨
        (t'.structHeight = t.structHeight + 1 ∧ (t = nil ∨ t'.Heavy record))) := by
  induction t with
  | nil =>
    refine ⟨_, rfl, ?_, Or.inr ⟨?_, Or.inl rfl⟩⟩
    · simp [avl_node_iff, structHeight, Avl]
    · simp [structHeight]
  | node rec l r c ihl ihr =>
    rw [avl_node_iff] at ht
    obtain ⟨hl, hr, hc, hb1, hb2⟩ := ht
    unfold insertHelper
    by_cases hlt : record.value < rec.value
    · simp only [hlt, if_true]
      obtain ⟨l', el', hl', hgrow⟩ := ihl hl
      simp only [el', Option.some_bind]
      by_cases hbal : l'.structHeight ≤ r.structHeight + 1
      · have hbal2 : r.structHeight ≤ l'.structHeight + 1 := by omega
        rw [insertRebalance_balanced rec record hl' hr hbal hbal2]
        refine ⟨_, rfl, ?_, ?_⟩
        · rw [avl_node_iff, height_eq_of_avl hl', height_eq_of_avl hr]
          exact ⟨hl', hr, by push_cast; rfl, hbal, hbal2⟩
        · simp only [structHeight, Heavy]
          rcases hgrow with h | ⟨h, _⟩
          · left; omega
          · by_cases hx : l'.structHeight = r.structHeight + 1
            · right; exact ⟨by omega, Or.inr (Or.inl ⟨hlt, hx⟩)⟩
            · left; omega
      · have hh : l'.structHeight = r.structHeight + 2 := by omega
        have hv : l'.Heavy record := by
          rcases hgrow with h | ⟨h, hn | hv⟩
          · omega
          · subst hn; simp [structHeight] at h; omega
          · exact hv
        obtain ⟨t', et', ht', hs⟩ := insertRebalance_left rec record hl' hr hh hv
        refine ⟨t', et', ht', Or.inl ?_⟩
        simp only [structHeight]; omega
    · by_cases hgt : record.value > rec.value
      · simp only [hlt, if_false, hgt, if_true]
        obtain ⟨r', er', hr', hgrow⟩ := ihr hr
        simp only [er', Option.some_bind]
        by_cases hbal : r'.structHeight ≤ l.structHeight + 1
        · have hbal2 : l.structHeight ≤ r'.structHeight + 1 := by omega
          rw [insertRebalance_balanced rec record hl hr' hbal2 hbal]
          refine ⟨_, rfl, ?_, ?_⟩
          · rw [avl_node_iff, height_eq_of_avl hl, height_eq_of_avl hr']
            exact ⟨hl, hr', by push_cast; rfl, hbal2, hbal⟩
          · simp only [structHeight, Heavy]
            rcases hgrow with h | ⟨h, _⟩
            · left; omega
            · by_cases hx : r'.structHeight = l.structHeight + 1
              · right; exact ⟨by omega, Or.inr (Or.inr ⟨hgt, hx⟩)⟩
              · left; omega
        · have hh : r'.structHeight = l.structHeight + 2 := by omega
          have hv : r'.Heavy record := by
            rcases hgrow with h | ⟨h, hn | hv⟩
            · omega
            · subst hn; simp [structHeight] at h; omega
            · exact hv
          obtain ⟨t', et', ht', hs⟩ := insertRebalance_right rec record hl hr' hh hv
          refine ⟨t', et', ht', Or.inl ?_⟩
          simp only [structHeight]; omega
      · simp only [hlt, if_false, hgt]
        exact ⟨_, rfl, (avl_node_iff _ _ _ _).2 ⟨hl, hr, hc, hb1, hb2⟩, Or.inl rfl⟩

/-! ## Deletion keeps heights and balance -/

theorem deleteRebalance_toList (t : AVLNode) : (deleteRebalance t).toList = t.toList := by
  cases t with
  | nil => rfl
  | node rec l r c =>
    unfold deleteRebalance
    simp only
    split
    · rw [toList_rotateRight, toList, toList]
    · split
      · rw [toList_rotateRight, toList, toList_rotateLeft, toList]
      · split
        · rw [toList_rotateLeft, toList, toList]
        · split
          · rw [toList_rotateLeft, toList, toList_rotateRight, toList]
          · rw [toList, toList]

/-- The rebalancing step of deletion, on a node whose subtrees are fine and
differ in height by at most two. -/
theorem deleteRebalance_avl (rec : Record) (c : Int) {l r : AVLNode}
    (hl : l.Avl) (hr : r.Avl) (h1 : l.structHeight ≤ r.structHeight + 2)
    (h2 : r.structHeight ≤ l.structHeight + 2) :
    (deleteRebalance (node rec l r c)).Avl ∧
      ((deleteRebalance (node rec l r c)).structHeight =
          max l.structHeight r.structHeight + 1 ∨
        ((deleteRebalance (node rec l r c)).structHeight =
            max l.structHeight r.structHeight ∧
          (l.structHeight = r.structHeight + 2 ∨ r.structHeight = l.structHeight + 2))) := by
  have el := height_eq_of_avl hl
  have er := height_eq_of_avl hr
  unfold deleteRebalance
  simp only [balance_node, height_node]
  by_cases hL : l.structHeight = r.structHeight + 2
  · cases l with
    | nil => simp [structHeight] at hL
    | node lrec ll lr lh =>
      rw [avl_node_iff] at hl
      obtain ⟨hll, hlr, hlh, hb1, hb2⟩ := hl
      have ell := height_eq_of_avl hll
      have elr := height_eq_of_avl hlr
      simp only [structHeight] at hL h1 h2 ⊢
      simp only [balance_node, height_node, er, hlh, ell, elr]
      by_cases hbl : lr.structHeight ≤ ll.structHeight
      · rw [if_pos ⟨by push_cast; omega, by omega⟩]
        simp only [rotateRight, height_node, ell, elr, er]
        refine ⟨?_, ?_⟩
        · simp only [avl_node_iff, structHeight]
          refine ⟨hll, ⟨hlr, hr, ?_, ?_, ?_⟩, ?_, ?_, ?_⟩ <;> (push_cast; omega)
        · (try simp only [structHeight]); omega
      · rw [if_neg (by rintro ⟨_, h⟩; omega), if_pos ⟨by push_cast; omega, by omega⟩]
        cases lr with
        | nil => simp [structHeight] at hbl
        | node mrec ml mr mh =>
          rw [avl_node_iff] at hlr
          obtain ⟨hml, hmr, hmh, hm1, hm2⟩ := hlr
          have eml := height_eq_of_avl hml
          have emr := height_eq_of_avl hmr
          simp only [structHeight] at hL hbl hb1 hb2 h1 h2 ⊢
          simp only [rotateLeft, rotateRight, height_node, ell, eml, emr, er]
          refine ⟨?_, ?_⟩
          · simp only [avl_node_iff, structHeight]
            refine ⟨⟨hll, hml, ?_, ?_, ?_⟩, ⟨hmr, hr, ?_, ?_, ?_⟩, ?_, ?_, ?_⟩ <;>
              (push_cast; omega)
          · omega
  · by_cases hR : r.structHeight = l.structHeight + 2
    · cases r with
      | nil => simp [structHeight] at hR
      | node rrec rl rr rh =>
        rw [avl_node_iff] at hr
        obtain ⟨hrl, hrr, hrh, hb1, hb2⟩ := hr
        have erl := height_eq_of_avl hrl
        have err := height_eq_of_avl hrr
        simp only [structHeight] at hR h1 h2 ⊢
        simp only [balance_node, height_node, el, hrh, erl, err]
        rw [if_neg (by rintro ⟨h, _⟩; push_cast at h; omega),
          if_neg (by rintro ⟨h, _⟩; push_cast at h; omega)]
        by_cases hbr : rl.structHeight ≤ rr.structHeight
        · rw [if_pos ⟨by push_cast; omega, by omega⟩]
          simp only [rotateLeft, height_node, erl, err, el]
          refine ⟨?_, ?_⟩
          · simp only [avl_node_iff, structHeight]
            refine ⟨⟨hl, hrl, ?_, ?_, ?_⟩, hrr, ?_, ?_, ?_⟩ <;> (push_cast; omega)
          · (try simp only [structHeight]); omega
        · rw [if_neg (by rintro ⟨_, h⟩; omega), if_pos ⟨by push_cast; omega, by omega⟩]
          cases rl with
          | nil => simp [structHeight] at hbr
          | node mrec ml mr mh =>
            rw [avl_node_iff] at hrl
            obtain ⟨hml, hmr, hmh, hm1, hm2⟩ := hrl
            have eml := height_eq_of_avl hml
            have emr := height_eq_of_avl hmr
            simp only [structHeight] at hR hbr hb1 hb2 h1 h2 ⊢
            simp only [rotateLeft, rotateRight, height_node, err, eml, emr, el]
            refine ⟨?_, ?_⟩
            · simp only [avl_node_iff, structHeight]
              refine ⟨⟨hl, hml, ?_, ?_, ?_⟩, ⟨hmr, hrr, ?_, ?_, ?_⟩, ?_, ?_, ?_⟩ <;>
                (push_cast; omega)
            · omega
    · simp only [el, er]
      rw [if_neg (by rintro ⟨h, _⟩; omega), if_neg (by rintro ⟨h, _⟩; omega),
        if_neg (by rintro ⟨h, _⟩; omega), if_neg (by rintro ⟨h, _⟩; omega)]
      refine ⟨?_, ?_⟩
      · simp only [avl_node_iff]
        exact ⟨hl, hr, by push_cast; rfl, by omega, by omega⟩
      · exact Or.inl rfl

theorem deleteRebalance_of_avl {t : AVLNode} (ht : t.Avl) :
    (deleteRebalance t).Avl ∧ (deleteRebalance t).structHeight = t.structHeight := by
  cases t with
  | nil => exact ⟨ht, rfl⟩
  | node rec l r c =>
    rw [avl_node_iff] at ht
    obtain ⟨hl, hr, _, hb1, hb2⟩ := ht
    have h := deleteRebalance_avl rec c hl hr (by omega) (by omega)
    refine ⟨h.1, ?_⟩
    simp only [structHeight]
    omega

/-- Deletion from a subtree with correct cached heights and balance returns a
subtree of the same kind, whose height is the old one or one less. -/
theorem deleteNodeHelper_avl (t : AVLNode) (ht : t.Avl) (key : String) (value : Int) :
    (deleteNodeHelper t key value).Avl ∧
      ((deleteNodeHelper t key value).structHeight = t.structHeight ∨
        (deleteNodeHelper t key value).structHeight + 1 = t.structHeight) := by
  induction t generalizing key value with
  | nil => exact ⟨ht, Or.inl rfl⟩
  | node rec l r c ihl ihr =>
    rw [avl_node_iff] at ht
    obtain ⟨hl, hr, hc, hb1, hb2⟩ := ht
    unfold deleteNodeHelper
    by_cases hlt : value < rec.value
    · simp only [hlt, if_true]
      obtain ⟨hl', hh⟩ := ihl hl key value
      have h := deleteRebalance_avl rec c hl' hr (by omega) (by omega)
      refine ⟨h.1, ?_⟩
      simp only [structHeight]
      omega
    · by_cases hgt : value > rec.value
      · simp only [hlt, if_false, hgt, if_true]
        obtain ⟨hr', hh⟩ := ihr hr key value
        have h := deleteRebalance_avl rec c hl hr' (by omega) (by omega)
        refine ⟨h.1, ?_⟩
        simp only [structHeight]
        omega
      · simp only [hlt, if_false, hgt]
        by_cases hnil : l = nil ∨ r = nil
        · simp only [hnil, if_true]
          by_cases hln : l = nil
          · subst hln
            simp only [ne_eq, not_true_eq_false, if_false]
            have h := deleteRebalance_of_avl hr
            refine ⟨h.1, Or.inr ?_⟩
            simp only [structHeight] at hb1 hb2 ⊢
            omega
          · simp only [ne_eq, hln, not_false_eq_true, if_true]
            have hrn : r = nil := by tauto
            subst hrn
            have h := deleteRebalance_of_avl hl
            refine ⟨h.1, Or.inr ?_⟩
            simp only [structHeight] at hb1 hb2 ⊢
            omega
        · simp only [hnil, if_false]
          cases r with
          | nil => simp at hnil
          | node rrec rl rr rh =>
            simp only
            obtain ⟨hr', hh⟩ := ihr hr (leftmost rrec rl).key (leftmost rrec rl).value
            have h := deleteRebalance_avl (leftmost rrec rl) c hl hr' (by omega) (by omega)
            refine ⟨h.1, ?_⟩
            simp only [structHeight] at hh h hb1 hb2 ⊢
            omega

/-! ## Ordering and the traversal -/

theorem ordered_iff_pairwise (t : AVLNode) :
    t.Ordered ↔ t.toList.Pairwise (fun a b => a.value < b.value) := by
  induction t with
  | nil => simp [Ordered, toList]
  | node rec l r c ihl ihr =>
    simp only [Ordered, toList, List.pairwise_append, List.pairwise_cons, List.mem_cons, ihl, ihr]
    constructor
    · rintro ⟨hl, hr, h1, h2⟩
      refine ⟨hl, ⟨h2, hr⟩, ?_⟩
      rintro a ha b (rfl | hb)
      · exact h1 a ha
      · exact lt_trans (h1 a ha) (h2 b hb)
    · rintro ⟨hl, ⟨h2, hr⟩, h3⟩
      exact ⟨hl, hr, fun a ha => h3 a ha rec (Or.inl rfl), h2⟩

theorem filter_eq_self_of_forall {p : Record → Bool} {l : List Record}
    (h : ∀ x ∈ l, p x = true) : l.filter p = l :=
  List.filter_eq_self.2 h

theorem filter_eq_nil_of_forall {p : Record → Bool} {l : List Record}
    (h : ∀ x ∈ l, p x = false) : l.filter p = [] := by
  induction l with
  | nil => rfl
  | cons x xs ih =>
    rw [List.filter_cons, h x (List.mem_cons_self _ _)]
    simpa using ih (fun y hy => h y (List.mem_cons_of_mem _ hy))

/-- Insertion of a record whose value is not stored: the traversal of the result
is the old traversal with the record put between the smaller and the larger
values. -/
theorem insertHelper_toList (record : Record) (t t' : AVLNode) (ht : t.Ordered)
    (habs : ∀ x ∈ t.toList, x.value ≠ record.value)
    (h : insertHelper t record = some t') :
    t'.toList = t.toList.filter (fun x => decide (x.value < record.value)) ++
      record :: t.toList.filter (fun x => decide (record.value < x.value)) := by
  induction t generalizing t' with
  | nil =>
    simp only [insertHelper, Option.some.injEq] at h
    subst h
    simp [toList]
  | node rec l r c ihl ihr =>
    simp only [Ordered] at ht
    obtain ⟨hl, hr, h1, h2⟩ := ht
    simp only [toList, List.mem_append, List.mem_cons] at habs
    have hne : rec.value ≠ record.value := habs rec (Or.inr (Or.inl rfl))
    unfold insertHelper at h
    by_cases hlt : record.value < rec.value
    · simp only [hlt, if_true] at h
      cases hi : insertHelper l record with
      | none => simp [hi] at h
      | some l' =>
        simp only [hi, Option.some_bind] at h
        rw [insertRebalance_toList h, ihl l' hl (fun x hx => habs x (Or.inl hx)) hi]
        have e1 : r.toList.filter (fun x => decide (x.value < record.value)) = [] :=
          filter_eq_nil_of_forall (fun x hx => by
            have := h2 x hx
            simp only [decide_eq_false_iff_not]; omega)
        have e2 : r.toList.filter (fun x => decide (record.value < x.value)) = r.toList :=
          filter_eq_self_of_forall (fun x hx => by
            have := h2 x hx
            simp only [decide_eq_true_eq]; omega)
        have e3 : decide (rec.value < record.value) = false := by
          simp only [decide_eq_false_iff_not]; omega
        have e4 : decide (record.value < rec.value) = true := by
          simp only [decide_eq_true_eq]; omega
        simp [toList, List.filter_append, List.filter_cons, e1, e2, e3, e4]
    · have hgt : record.value > rec.value := by omega
      simp only [hlt, if_false, hgt, if_true] at h
      cases hi : insertHelper r record with
      | none => simp [hi] at h
      | some r' =>
        simp only [hi, Option.some_bind] at h
        rw [insertRebalance_toList h, ihr r' hr (fun x hx => habs x (Or.inr (Or.inr hx))) hi]
        have e1 : l.toList.filter (fun x => decide (x.value < record.value)) = l.toList :=
          filter_eq_self_of_forall (fun x hx => by
            have := h1 x hx
            simp only [decide_eq_true_eq]; omega)
        have e2 : l.toList.filter (fun x => decide (record.value < x.value)) = [] :=
          filter_eq_nil_of_forall (fun x hx => by
            have := h1 x hx
            simp only [decide_eq_false_iff_not]; omega)
        have e3 : decide (rec.value < record.value) = true := by
          simp only [decide_eq_true_eq]; omega
        have e4 : decide (record.value < rec.value) = false := by
          simp only [decide_eq_false_iff_not]; omega
        simp [toList, List.filter_append, List.filter_cons, e1, e2, e3, e4]

/-- Insertion of a record whose value is stored changes nothing. -/
theorem insertHelper_of_mem (record : Record) (t : AVLNode) (ha : t.Avl) (ht : t.Ordered)
    (hmem : ∃ x ∈ t.toList, x.value = record.value) :
    insertHelper t record = some t := by
  induction t with
  | nil => simp [toList] at hmem
  | node rec l r c ihl ihr =>
    simp only [Ordered] at ht
    obtain ⟨hl, hr, h1, h2⟩ := ht
    have ha' := ha
    rw [avl_node_iff] at ha'
    obtain ⟨al, ar, hc, hb1, hb2⟩ := ha'
    obtain ⟨x, hx, hxv⟩ := hmem
    simp only [toList, List.mem_append, List.mem_cons] at hx
    unfold insertHelper
    by_cases hlt : record.value < rec.value
    · simp only [hlt, if_true]
      have hxl : x ∈ l.toList := by
        rcases hx with hx | rfl | hx
        · exact hx
        · omega
        · have := h2 x hx; omega
      rw [ihl al hl ⟨x, hxl, hxv⟩, Option.some_bind,
        insertRebalance_balanced rec record al ar hb1 hb2, height_eq_of_avl al,
        height_eq_of_avl ar, hc]
      push_cast
      rfl
    · by_cases hgt : record.value > rec.value
      · simp only [hlt, if_false, hgt, if_true]
        have hxr : x ∈ r.toList := by
          rcases hx with hx | rfl | hx
          · have := h1 x hx; omega
          · omega
          · exact hx
        rw [ihr ar hr ⟨x, hxr, hxv⟩, Option.some_bind,
          insertRebalance_balanced rec record al ar hb1 hb2, height_eq_of_avl al,
          height_eq_of_avl ar, hc]
        push_cast
        rfl
      · simp only [hlt, if_false, hgt]

theorem pairwise_insert_filter (record : Record) (l : List Record)
    (h : l.Pairwise (fun a b => a.value < b.value)) :
    (l.filter (fun x => decide (x.value < record.value)) ++
      record :: l.filter (fun x => decide (record.value < x.value))).Pairwise
      (fun a b => a.value < b.value) := by
  rw [List.pairwise_append, List.pairwise_cons]
  refine ⟨h.sublist (List.filter_sublist _), ⟨?_, h.sublist (List.filter_sublist _)⟩, ?_⟩
  · intro b hb
    simpa using (List.mem_filter.1 hb).2
  · intro a ha b hb
    have h1 : a.value < record.value := by simpa using (List.mem_filter.1 ha).2
    rcases List.mem_cons.1 hb with rfl | hb
    · exact h1
    · have h2 : record.value < b.value := by simpa using (List.mem_filter.1 hb).2
      omega

theorem leftmost_head (l : AVLNode) (rec : Record) (suffix : List Record) :
    ∃ rest, l.toList ++ rec :: suffix = leftmost rec l :: rest := by
  induction l generalizing rec suffix with
  | nil => exact ⟨suffix, rfl⟩
  | node lrec ll lr lh ihl _ =>
    obtain ⟨rest, h⟩ := ihl lrec (lr.toList ++ rec :: suffix)
    exact ⟨rest, by simpa [toList, leftmost] using h⟩

/-- Deletion by value: the traversal of the result is the old traversal without
the record of that value. -/
theorem deleteNodeHelper_toList (t : AVLNode) (ht : t.Ordered) (key : String) (value : Int) :
    (deleteNodeHelper t key value).toList =
      t.toList.filter (fun x => decide (x.value ≠ value)) := by
  induction t generalizing key value with
  | nil => rfl
  | node rec l r c ihl ihr =>
    simp only [Ordered] at ht
    obtain ⟨hl, hr, h1, h2⟩ := ht
    have keepl : ∀ v : Int, v ≥ rec.value →
        l.toList.filter (fun x => decide (x.value ≠ v)) = l.toList := fun v hv =>
      filter_eq_self_of_forall (fun x hx => by
        have := h1 x hx
        simp only [ne_eq, decide_not, Bool.not_eq_true', decide_eq_false_iff_not]; omega)
    have keepr : ∀ v : Int, v ≤ rec.value →
        r.toList.filter (fun x => decide (x.value ≠ v)) = r.toList := fun v hv =>
      filter_eq_self_of_forall (fun x hx => by
        have := h2 x hx
        simp only [ne_eq, decide_not, Bool.not_eq_true', decide_eq_false_iff_not]; omega)
    unfold deleteNodeHelper
    by_cases hlt : value < rec.value
    · have e : decide (rec.value ≠ value) = true := by
        simp only [ne_eq, decide_not, Bool.not_eq_true', decide_eq_false_iff_not]; omega
      simp only [hlt, if_true, deleteRebalance_toList, toList, ihl hl, List.filter_append,
        List.filter_cons, e, keepr value (by omega)]
    · by_cases hgt : value > rec.value
      · have e : decide (rec.value ≠ value) = true := by
          simp only [ne_eq, decide_not, Bool.not_eq_true', decide_eq_false_iff_not]; omega
        simp only [hlt, if_false, hgt, if_true, deleteRebalance_toList, toList, ihr hr,
          List.filter_append, List.filter_cons, e, keepl value (by omega)]
      · have hv : value = rec.value := by omega
        have e : decide (rec.value ≠ value) = false := by
          simp only [ne_eq, decide_not, Bool.not_eq_false', decide_eq_true_eq]; omega
        simp only [hlt, if_false, hgt, toList, List.filter_append, List.filter_cons, e,
          keepl value (by omega), keepr value (by omega)]
        by_cases hnil : l = nil ∨ r = nil
        · simp only [hnil, if_true, deleteRebalance_toList]
          by_cases hln : l = nil
          · subst hln
            simp [toList]
          · have hrn : r = nil := by tauto
            subst hrn
            simp [hln, toList]
        · simp only [hnil, if_false]
          cases r with
          | nil => simp at hnil
          | node rrec rl rr rh =>
            simp only [deleteRebalance_toList, toList]
            rw [ihr hr]
            obtain ⟨rest, hrest⟩ := leftmost_head rl rrec rr.toList
            have hp := (ordered_iff_pairwise _).1 hr
            simp only [toList] at hp ⊢
            rw [hrest] at hp ⊢
            rw [List.pairwise_cons] at hp
            have e2 : decide ((leftmost rrec rl).value ≠ (leftmost rrec rl).value) = false := by
              simp
            rw [List.filter_cons, e2]
            simp only [Bool.false_eq_true, if_false]
            rw [filter_eq_self_of_forall (fun x hx => by
              have := hp.1 x hx
              simp only [ne_eq, decide_not, Bool.not_eq_true', decide_eq_false_iff_not]; omega)]

/-! ## Search -/

theorem searchLoop_some {t : AVLNode} {key : String} {value : Int} {rec : Record}
    (h : searchLoop t key value = some rec) :
    rec ∈ t.toList ∧ rec.key = key ∧ rec.value = value := by
  induction t with
  | nil => simp [searchLoop] at h
  | node nrec l r c ihl ihr =>
    unfold searchLoop at h
    simp only [toList, List.mem_append, List.mem_cons]
    split at h
    · rename_i hc
      simp only [Option.some.injEq] at h
      subst h
      exact ⟨Or.inr (Or.inl rfl), hc.2.symm, hc.1.symm⟩
    · split at h
      · have := ihr h
        exact ⟨Or.inr (Or.inr this.1), this.2⟩
      · have := ihl h
        exact ⟨Or.inl this.1, this.2⟩

theorem searchLoop_of_mem {t : AVLNode} (ht : t.Ordered) {rec : Record}
    (h : rec ∈ t.toList) : searchLoop t rec.key rec.value = some rec := by
  induction t with
  | nil => simp [toList] at h
  | node nrec l r c ihl ihr =>
    simp only [Ordered] at ht
    obtain ⟨hl, hr, h1, h2⟩ := ht
    simp only [toList, List.mem_append, List.mem_cons] at h
    unfold searchLoop
    rcases h with h | rfl | h
    · have := h1 rec h
      rw [if_neg (by rintro ⟨hv, _⟩; omega), if_neg (by omega)]
      exact ihl hl h
    · simp
    · have := h2 rec h
      rw [if_neg (by rintro ⟨hv, _⟩; omega), if_pos (by omega)]
      exact ihr hr h

/-! ## Invariants of reachable states -/

theorem insertHelper_inv (record : Record) (t : AVLNode) (ha : t.Avl) (ho : t.Ordered) :
    ∃ t', insertHelper t record = some t' ∧ t'.Avl ∧ t'.Ordered ∧
      ((∃ x ∈ t.toList, x.value = record.value) → t' = t) ∧
      ((∀ x ∈ t.toList, x.value ≠ record.value) →
        t'.toList = t.toList.filter (fun x => decide (x.value < record.value)) ++
          record :: t.toList.filter (fun x => decide (record.value < x.value))) := by
  obtain ⟨t', e, ha', _⟩ := insertHelper_avl record t ha
  by_cases hmem : ∃ x ∈ t.toList, x.value = record.value
  · have e2 := insertHelper_of_mem record t ha ho hmem
    have ett : t' = t := by
      rw [e] at e2
      exact Option.some.inj e2
    subst ett
    refine ⟨t', e, ha, ho, fun _ => rfl, fun habs => ?_⟩
    obtain ⟨x, hx, hxv⟩ := hmem
    exact absurd hxv (habs x hx)
  · have habs : ∀ x ∈ t.toList, x.value ≠ record.value := fun x hx hxv => hmem ⟨x, hx, hxv⟩
    have hl := insertHelper_toList record t t' ho habs e
    refine ⟨t', e, ha', ?_, fun h => absurd h hmem, fun _ => hl⟩
    rw [ordered_iff_pairwise, hl]
    exact pairwise_insert_filter record _ ((ordered_iff_pairwise t).1 ho)

theorem deleteNodeHelper_ordered (t : AVLNode) (ho : t.Ordered) (key : String) (value : Int) :
    (deleteNodeHelper t key value).Ordered := by
  rw [ordered_iff_pairwise, deleteNodeHelper_toList t ho]
  exact ((ordered_iff_pairwise t).1 ho).sublist (List.filter_sublist _)

theorem insert_eq_some {t t' : AVLTree} {record : Record} (h : t.insert record = some t') :
    insertHelper t.root record = some t'.root := by
  unfold AVLTree.insert at h
  cases hi : insertHelper t.root record with
  | none => simp [hi] at h
  | some n =>
    simp only [hi, Option.map_some', Option.some.injEq] at h
    rw [← h]

/-- Every reachable tree has correct cached heights, is balanced and ordered. -/
theorem reachable_inv {t : AVLTree} (h : AVLTree.Reachable t) : t.root.Avl ∧ t.root.Ordered := by
  induction h with
  | empty => exact ⟨trivial, trivial⟩
  | insert record _ e ih =>
    obtain ⟨t'', e', ha, ho, _⟩ := insertHelper_inv record _ ih.1 ih.2
    have := insert_eq_some e
    rw [e'] at this
    rw [← Option.some.inj this]
    exact ⟨ha, ho⟩
  | deleteNode key value _ ih =>
    exact ⟨(deleteNodeHelper_avl _ ih.1 key value).1, deleteNodeHelper_ordered _ ih.2 key value⟩

/-- The index of a reachable database is a reachable tree. -/
theorem index_reachable {db : IndexedDatabase} (h : IndexedDatabase.Reachable db) :
    AVLTree.Reachable db.index := by
  induction h with
  | empty => exact AVLTree.Reachable.empty
  | @insert db db' record _ e ih =>
    unfold IndexedDatabase.insert at e
    cases hi : db.index.insert record with
    | none => simp [hi] at e
    | some t' =>
      simp only [hi, Option.map_some', Option.some.injEq] at e
      rw [← e]
      exact AVLTree.Reachable.insert record ih hi
  | @deleteRecord db key value _ ih =>
    unfold IndexedDatabase.deleteRecord
    simp only
    split
    · exact AVLTree.Reachable.deleteNode key value ih
    · exact ih
  | clearDatabase _ _ => exact AVLTree.Reachable.empty

theorem balanced_of_avl {t : AVLNode} (h : t.Avl) : t.Balanced := by
  induction t with
  | nil => trivial
  | node rec l r c ihl ihr =>
    rw [avl_node_iff] at h
    obtain ⟨hl, hr, _, h1, h2⟩ := h
    exact ⟨ihl hl, ihr hr, abs_le.2 ⟨by omega, by omega⟩⟩

theorem heightsCached_of_avl {t : AVLNode} (h : t.Avl) : t.HeightsCached := by
  induction t with
  | nil => trivial
  | node rec l r c ihl ihr =>
    rw [avl_node_iff] at h
    obtain ⟨hl, hr, hc, _, _⟩ := h
    exact ⟨ihl hl, ihr hr, hc⟩

/-! ## Consequences for search, insertion and deletion -/

theorem searchLoop_none_of_absent {t : AVLNode} {key : String} {value : Int}
    (h : ∀ x ∈ t.toList, ¬ (x.key = key ∧ x.value = value)) :
    searchLoop t key value = none := by
  cases hs : searchLoop t key value with
  | none => rfl
  | some rec =>
    have := searchLoop_some hs
    exact absurd this.2 (h rec this.1)

theorem search_of_searchLoop_none {t : AVLTree} {key : String} {value : Int}
    (h : searchLoop t.root key value = none) : t.search key value = ⟨"", 0⟩ := by
  simp [AVLTree.search, h]

theorem search_of_searchLoop_some {t : AVLTree} {key : String} {value : Int} {rec : Record}
    (h : searchLoop t.root key value = some rec) : t.search key value = rec := by
  simp [AVLTree.search, h]

theorem value_absent_after_delete (t : AVLNode) (ho : t.Ordered) (key : String)
    (value : Int) : ∀ x ∈ (deleteNodeHelper t key value).toList, x.value ≠ value := by
  intro x hx
  rw [deleteNodeHelper_toList t ho] at hx
  simpa using (List.mem_filter.1 hx).2

theorem eq_of_value_eq {l : List Record} (hp : l.Pairwise (fun a b => a.value < b.value))
    {a b : Record} (ha : a ∈ l) (hb : b ∈ l) (h : a.value = b.value) : a = b := by
  induction l with
  | nil => simp at ha
  | cons x xs ih =>
    rw [List.pairwise_cons] at hp
    rcases List.mem_cons.1 ha with rfl | ha' <;> rcases List.mem_cons.1 hb with rfl | hb'
    · rfl
    · have := hp.1 b hb'; omega
    · have := hp.1 a ha'; omega
    · exact ih hp.2 ha' hb'

theorem filter_lt_append_filter_gt (v : Int) (l : List Record)
    (hp : l.Pairwise (fun a b => a.value < b.value)) (habs : ∀ x ∈ l, x.value ≠ v) :
    l.filter (fun x => decide (x.value < v)) ++ l.filter (fun x => decide (v < x.value)) = l := by
  induction l with
  | nil => rfl
  | cons x xs ih =>
    rw [List.pairwise_cons] at hp
    have hx := habs x (List.mem_cons_self _ _)
    have ih' := ih hp.2 (fun y hy => habs y (List.mem_cons_of_mem _ hy))
    by_cases hlt : x.value < v
    · have e1 : decide (x.value < v) = true := by simpa using hlt
      have e2 : decide (v < x.value) = false := by
        simp only [decide_eq_false_iff_not]; omega
      rw [List.filter_cons, e1, List.filter_cons, e2]
      simpa using ih'
    · have e1 : (x :: xs).filter (fun y => decide (y.value < v)) = [] :=
        filter_eq_nil_of_forall (fun y hy => by
          simp only [decide_eq_false_iff_not]
          rcases List.mem_cons.1 hy with rfl | hy'
          · exact hlt
          · have := hp.1 y hy'; omega)
      have e2 : (x :: xs).filter (fun y => decide (v < y.value)) = x :: xs :=
        filter_eq_self_of_forall (fun y hy => by
          simp only [decide_eq_true_eq]
          rcases List.mem_cons.1 hy with rfl | hy'
          · omega
          · have := hp.1 y hy'; omega)
      rw [e1, e2, List.nil_append]

theorem rangeQuery_foldl (start stop : Int) (l acc : List Record) :
    l.foldl (fun result record =>
        if record.value ≥ start ∧ record.value ≤ stop then result ++ [record] else result) acc =
      acc ++ l.filter (fun r => decide (start ≤ r.value ∧ r.value ≤ stop)) := by
  induction l generalizing acc with
  | nil => simp
  | cons x xs ih =>
    rw [List.foldl_cons, ih, List.filter_cons]
    by_cases h : start ≤ x.value ∧ x.value ≤ stop
    · have h' : x.value ≥ start ∧ x.value ≤ stop := h
      simp [h, h']
    · have h' : ¬ (x.value ≥ start ∧ x.value ≤ stop) := h
      simp [h, h']

/-- Deleting a stored record whose key is not empty: the node is removed, the
counter decremented, the pair is gone from the traversal and the search loop
ends without a match. -/
theorem deleteRecord_of_stored (db : IndexedDatabase) (key : String) (value : Int)
    (hdb : IndexedDatabase.Reachable db)
    (hmem : (⟨key, value⟩ : Record) ∈ db.inorderTraversal) (hkey : key ≠ "") :
    db.deleteRecord key value = ⟨db.index.deleteNode key value, IndexedDatabase.wrapInt (db.inv - 1)⟩ ∧
      (⟨key, value⟩ : Record) ∉ (db.deleteRecord key value).inorderTraversal ∧
      searchLoop (db.deleteRecord key value).index.root key value = none ∧
      (db.deleteRecord key value).search key value = ⟨"", 0⟩ := by
  obtain ⟨_, ho⟩ := reachable_inv (index_reachable hdb)
  have hm : (⟨key, value⟩ : Record) ∈ db.index.root.toList := by
    simpa [IndexedDatabase.inorderTraversal, inorderTraversal_eq] using hmem
  have hs := searchLoop_of_mem ho hm
  have hk : (db.index.search key value).key ≠ "" := by
    rw [search_of_searchLoop_some hs]; exact hkey
  have e : db.deleteRecord key value = ⟨db.index.deleteNode key value, IndexedDatabase.wrapInt (db.inv - 1)⟩ := by
    simp [IndexedDatabase.deleteRecord, hk]
  have habs := value_absent_after_delete db.index.root ho key value
  have hn : searchLoop (db.index.deleteNode key value).root key value = none :=
    searchLoop_none_of_absent (fun x hx hxv => habs x hx hxv.2)
  rw [e]
  refine ⟨rfl, ?_, hn, search_of_searchLoop_none hn⟩
  intro hin
  have : (⟨key, value⟩ : Record) ∈ (deleteNodeHelper db.index.root key value).toList := by
    simpa [IndexedDatabase.inorderTraversal, inorderTraversal_eq, AVLTree.deleteNode] using hin
  exact habs _ this rfl

/-! ## Reachability of the sample states -/

theorem sample_t1_reachable : AVLTree.Reachable Sample.t1 :=
  AVLTree.Reachable.insert ⟨"a", 1⟩ AVLTree.Reachable.empty (by decide)

theorem sample_t2_reachable : AVLTree.Reachable Sample.t2 :=
  AVLTree.Reachable.insert ⟨"b", 2⟩ sample_t1_reachable (by decide)

theorem sample_t3_reachable : AVLTree.Reachable Sample.t3 :=
  AVLTree.Reachable.insert ⟨"c", 3⟩ sample_t2_reachable (by decide)

theorem sample_db1_reachable : IndexedDatabase.Reachable Sample.db1 :=
  IndexedDatabase.Reachable.insert ⟨"a", 1⟩ IndexedDatabase.Reachable.empty (by decide)

theorem sample_dbDup_reachable : IndexedDatabase.Reachable Sample.dbDup :=
  IndexedDatabase.Reachable.insert ⟨"b", 1⟩ sample_db1_reachable (by decide)

theorem sample_db3_reachable : IndexedDatabase.Reachable Sample.db3 :=
  IndexedDatabase.Reachable.insert ⟨"c", 3⟩
    (IndexedDatabase.Reachable.insert ⟨"b", 2⟩ sample_db1_reachable
      (by decide : Sample.db1.insert ⟨"b", 2⟩ = some ⟨Sample.t2, 2⟩))
    (by decide)

theorem sample_dbEmptyKey_reachable : IndexedDatabase.Reachable Sample.dbEmptyKey :=
  IndexedDatabase.Reachable.insert ⟨"", 5⟩ IndexedDatabase.Reachable.empty (by decide)

/-! ## The claims -/

/-- C1: in every tree reachable from the empty tree by `insert` and `deleteNode`
calls, and in the index of every database reachable by `insert`, `deleteRecord`
and `clearDatabase` calls, every node has subtrees whose structural heights
differ by at most one. -/
theorem balance_invariant (t : AVLTree) (db : IndexedDatabase)
    (ht : AVLTree.Reachable t) (hdb : IndexedDatabase.Reachable db) :
    t.root.Balanced ∧ db.index.root.Balanced :=
  ⟨balanced_of_avl (reachable_inv ht).1,
    balanced_of_avl (reachable_inv (index_reachable hdb)).1⟩

theorem balance_invariant_witness :
    AVLTree.Reachable Sample.t3 ∧ IndexedDatabase.Reachable Sample.db3 ∧
      Sample.t3.root.Balanced ∧ Sample.db3.index.root.Balanced :=
  ⟨sample_t3_reachable, sample_db3_reachable,
    balance_invariant Sample.t3 Sample.db3 sample_t3_reachable sample_db3_reachable⟩

/-- C2: in every tree reachable by `insert` and `deleteNode` calls, the value of
every node is strictly greater than every value of its left subtree and strictly
smaller than every value of its right subtree; `inorderTraversal()` lists strictly
increasing, hence non-decreasing, values, and no two stored records share a
value. -/
theorem ordering_invariant (t : AVLTree) (ht : AVLTree.Reachable t) :
    t.root.Ordered ∧
      t.inorderTraversal.Pairwise (fun a b => a.value < b.value) ∧
      t.inorderTraversal.Pairwise (fun a b => a.value ≤ b.value) ∧
      (t.inorderTraversal.map Record.value).Nodup := by
  have ho := (reachable_inv ht).2
  have hp := (ordered_iff_pairwise _).1 ho
  rw [inorderTraversal_eq]
  refine ⟨ho, hp, hp.imp (fun h => le_of_lt h), ?_⟩
  rw [List.Nodup, List.pairwise_map]
  exact hp.imp (fun h => ne_of_lt h)

theorem ordering_invariant_witness :
    AVLTree.Reachable Sample.t3 ∧ Sample.t3.root.Ordered ∧
      Sample.t3.inorderTraversal.Pairwise (fun a b => a.value < b.value) ∧
      Sample.t3.inorderTraversal.Pairwise (fun a b => a.value ≤ b.value) ∧
      (Sample.t3.inorderTraversal.map Record.value).Nodup :=
  ⟨sample_t3_reachable, ordering_invariant Sample.t3 sample_t3_reachable⟩

/-- C3: the counter and the traversal disagree after a second insert of a value
already stored: from the empty database, `insert(("a", 1))` then
`insert(("b", 1))` gives a reachable database with `countRecords() = 2` whose
`inorderTraversal()` has the single record `("a", 1)`. -/
theorem count_exceeds_traversal_after_duplicate :
    IndexedDatabase.empty.insert ⟨"a", 1⟩ = some Sample.db1 ∧
      Sample.db1.insert ⟨"b", 1⟩ = some Sample.dbDup ∧
      Sample.dbDup.countRecords = 2 ∧
      Sample.dbDup.inorderTraversal = [⟨"a", 1⟩] ∧
      Sample.dbDup.countRecords ≠ (Sample.dbDup.inorderTraversal.length : Int) := by
  decide

/-- C4, as stated, fails: on the reachable database holding `("a", 1)`,
`insert(("b", 1))` leaves the tree as it is and `search("b", 1)` then ends its
loop without a match and returns the fresh `("", 0)`, not the record inserted. -/
theorem insert_then_search_counterexample :
    IndexedDatabase.Reachable Sample.db1 ∧
      Sample.db1.insert ⟨"b", 1⟩ = some Sample.dbDup ∧
      searchLoop Sample.dbDup.index.root "b" 1 = none ∧
      Sample.dbDup.search "b" 1 = ⟨"", 0⟩ ∧
      Sample.dbDup.search "b" 1 ≠ ⟨"b", 1⟩ :=
  ⟨sample_db1_reachable, by decide, by decide, by decide, by decide⟩

/-- C4, amended: on a reachable database, when no stored record has the value of
`record` together with another key, `insert(record)` returns and the search for
the key and value of `record` right after it returns a stored record equal to
`record`. -/
theorem insert_then_search (db : IndexedDatabase) (record : Record)
    (hdb : IndexedDatabase.Reachable db)
    (hkey : ∀ x ∈ db.inorderTraversal, x.value = record.value → x.key = record.key) :
    ∃ db', db.insert record = some db' ∧
      searchLoop db'.index.root record.key record.value = some record ∧
      db'.search record.key record.value = record ∧
      record ∈ db'.inorderTraversal := by
  obtain ⟨ha, ho⟩ := reachable_inv (index_reachable hdb)
  obtain ⟨t', e, _, ho', hsame, hnew⟩ := insertHelper_inv record db.index.root ha ho
  have hmem : record ∈ t'.toList := by
    by_cases hm : ∃ x ∈ db.index.root.toList, x.value = record.value
    · obtain ⟨x, hx, hxv⟩ := hm
      rw [hsame ⟨x, hx, hxv⟩]
      have hk := hkey x (by simpa [IndexedDatabase.inorderTraversal, inorderTraversal_eq] using hx)
        hxv
      have : x = record := by
        cases x; cases record; simp_all
      rwa [← this]
    · rw [hnew (fun x hx hxv => hm ⟨x, hx, hxv⟩)]
      simp
  have hs := searchLoop_of_mem ho' hmem
  refine ⟨⟨⟨t'⟩, IndexedDatabase.wrapInt (db.inv + 1)⟩, ?_, hs, ?_, ?_⟩
  · simp [IndexedDatabase.insert, AVLTree.insert, e]
  · exact search_of_searchLoop_some hs
  · simpa [IndexedDatabase.inorderTraversal, inorderTraversal_eq] using hmem

theorem insert_then_search_witness :
    IndexedDatabase.Reachable Sample.db1 ∧
      (∀ x ∈ Sample.db1.inorderTraversal, x.value = 2 → x.key = "b") ∧
      ∃ db', Sample.db1.insert ⟨"b", 2⟩ = some db' ∧
        searchLoop db'.index.root "b" 2 = some ⟨"b", 2⟩ ∧
        db'.search "b" 2 = ⟨"b", 2⟩ ∧ (⟨"b", 2⟩ : Record) ∈ db'.inorderTraversal :=
  ⟨sample_db1_reachable, by decide,
    insert_then_search Sample.db1 ⟨"b", 2⟩ sample_db1_reachable (by decide)⟩

/-- C5: a stored record with the empty key is not deleted: on the reachable
database holding `("", 5)`, `deleteRecord("", 5)` changes nothing, because the
record found by the search has the key `""` that the code reads as not found;
the record is still in the traversal and the search loop still returns it. -/
theorem deleteRecord_keeps_empty_key_record :
    IndexedDatabase.Reachable Sample.dbEmptyKey ∧
      (⟨"", 5⟩ : Record) ∈ Sample.dbEmptyKey.inorderTraversal ∧
      Sample.dbEmptyKey.deleteRecord "" 5 = Sample.dbEmptyKey ∧
      (⟨"", 5⟩ : Record) ∈ (Sample.dbEmptyKey.deleteRecord "" 5).inorderTraversal ∧
      searchLoop (Sample.dbEmptyKey.deleteRecord "" 5).index.root "" 5 = some ⟨"", 5⟩ :=
  ⟨sample_dbEmptyKey_reachable, by decide, by decide, by decide, by decide⟩

/-- C6: on a reachable database, `deleteRecord(key, value)` for a pair that no
stored record carries leaves the database (tree with its shape, records and
cached heights, and counter) unchanged; and for every pair, a second
`deleteRecord(key, value)` changes nothing more. -/
theorem deleteRecord_absent_noop (db : IndexedDatabase) (key : String) (value : Int)
    (hdb : IndexedDatabase.Reachable db) :
    ((∀ x ∈ db.inorderTraversal, ¬ (x.key = key ∧ x.value = value)) →
        db.deleteRecord key value = db ∧
        (db.deleteRecord key value).countRecords = db.countRecords) ∧
      (db.deleteRecord key value).deleteRecord key value = db.deleteRecord key value := by
  obtain ⟨_, ho⟩ := reachable_inv (index_reachable hdb)
  have noop : ∀ d : IndexedDatabase, searchLoop d.index.root key value = none →
      d.deleteRecord key value = d := by
    intro d hd
    simp [IndexedDatabase.deleteRecord, search_of_searchLoop_none hd]
  refine ⟨fun habs => ?_, ?_⟩
  · have hn : searchLoop db.index.root key value = none :=
      searchLoop_none_of_absent (fun x hx =>
        habs x (by simpa [IndexedDatabase.inorderTraversal, inorderTraversal_eq] using hx))
    rw [noop db hn]
    exact ⟨rfl, rfl⟩
  · by_cases hk : (db.index.search key value).key = ""
    · have e : db.deleteRecord key value = db := by
        simp [IndexedDatabase.deleteRecord, hk]
      rw [e, e]
    · have e : db.deleteRecord key value = ⟨db.index.deleteNode key value, IndexedDatabase.wrapInt (db.inv - 1)⟩ := by
        simp [IndexedDatabase.deleteRecord, hk]
      rw [e]
      apply noop
      apply searchLoop_none_of_absent
      intro x hx hxv
      exact value_absent_after_delete db.index.root ho key value x hx hxv.2

theorem deleteRecord_absent_noop_witness :
    IndexedDatabase.Reachable Sample.db3 ∧
      (∀ x ∈ Sample.db3.inorderTraversal, ¬ (x.key = "x" ∧ x.value = 2)) ∧
      (Sample.db3.deleteRecord "x" 2 = Sample.db3 ∧
        (Sample.db3.deleteRecord "x" 2).countRecords = Sample.db3.countRecords) ∧
      (Sample.db3.deleteRecord "x" 2).deleteRecord "x" 2 = Sample.db3.deleteRecord "x" 2 :=
  ⟨sample_db3_reachable, by decide,
    (deleteRecord_absent_noop Sample.db3 "x" 2 sample_db3_reachable).1 (by decide),
    (deleteRecord_absent_noop Sample.db3 "x" 2 sample_db3_reachable).2⟩

/-- C7: on a reachable database, `rangeQuery(start, end)` is the traversal
filtered by `start ≤ value ≤ end`: it holds exactly the stored records of the
range, each once, as a sublist of the traversal and so in strictly ascending
value order, and it is empty when `start > end`. -/
theorem rangeQuery_spec (db : IndexedDatabase) (start stop : Int)
    (hdb : IndexedDatabase.Reachable db) :
    db.rangeQuery start stop =
        db.inorderTraversal.filter (fun r => decide (start ≤ r.value ∧ r.value ≤ stop)) ∧
      (∀ r, r ∈ db.rangeQuery start stop ↔
        r ∈ db.inorderTraversal ∧ start ≤ r.value ∧ r.value ≤ stop) ∧
      (db.rangeQuery start stop).Nodup ∧
      (db.rangeQuery start stop).Sublist db.inorderTraversal ∧
      (db.rangeQuery start stop).Pairwise (fun a b => a.value < b.value) ∧
      (stop < start → db.rangeQuery start stop = []) := by
  have hp : db.inorderTraversal.Pairwise (fun a b => a.value < b.value) := by
    have := (ordered_iff_pairwise _).1 (reachable_inv (index_reachable hdb)).2
    rwa [← inorderTraversal_eq] at this
  have e : db.rangeQuery start stop =
      db.inorderTraversal.filter (fun r => decide (start ≤ r.value ∧ r.value ≤ stop)) := by
    unfold IndexedDatabase.rangeQuery IndexedDatabase.inorderTraversal
    rw [rangeQuery_foldl, List.nil_append]
  have hsub : (db.rangeQuery start stop).Sublist db.inorderTraversal := by
    rw [e]; exact List.filter_sublist _
  have hpq := hp.sublist hsub
  refine ⟨e, ?_, ?_, hsub, hpq, ?_⟩
  · intro r
    rw [e, List.mem_filter]
    simp
  · exact hpq.imp (fun h => by intro hab; rw [hab] at h; exact lt_irrefl _ h)
  · intro hlt
    rw [e]
    exact filter_eq_nil_of_forall (fun x _ => by
      simp only [decide_eq_false_iff_not]; omega)

theorem rangeQuery_spec_witness :
    IndexedDatabase.Reachable Sample.db3 ∧
      Sample.db3.rangeQuery 2 3 =
        Sample.db3.inorderTraversal.filter (fun r => decide (2 ≤ r.value ∧ r.value ≤ 3)) ∧
      (∀ r, r ∈ Sample.db3.rangeQuery 2 3 ↔
        r ∈ Sample.db3.inorderTraversal ∧ 2 ≤ r.value ∧ r.value ≤ 3) ∧
      (Sample.db3.rangeQuery 2 3).Nodup ∧
      (Sample.db3.rangeQuery 2 3).Sublist Sample.db3.inorderTraversal ∧
      (Sample.db3.rangeQuery 2 3).Pairwise (fun a b => a.value < b.value) ∧
      ((3 : Int) < 2 → Sample.db3.rangeQuery 2 3 = []) :=
  ⟨sample_db3_reachable, rangeQuery_spec Sample.db3 2 3 sample_db3_reachable⟩

/-- C8: on a tree reachable by `insert` and `deleteNode` calls, the loop of
`search(key, value)` returns a stored record exactly when a record with that key
and that value is stored, and the record returned is that one; otherwise the
loop ends without a match and `search` returns the fresh record with key `""`
and value `0`. -/
theorem search_spec (t : AVLTree) (key : String) (value : Int)
    (ht : AVLTree.Reachable t) :
    ((∃ x ∈ t.inorderTraversal, x.key = key ∧ x.value = value) ↔
        ∃ rec, searchLoop t.root key value = some rec) ∧
      (∀ rec, searchLoop t.root key value = some rec →
        rec ∈ t.inorderTraversal ∧ rec.key = key ∧ rec.value = value ∧
          t.search key value = rec) ∧
      ((¬ ∃ x ∈ t.inorderTraversal, x.key = key ∧ x.value = value) →
        searchLoop t.root key value = none ∧ t.search key value = ⟨"", 0⟩) := by
  have ho := (reachable_inv ht).2
  rw [inorderTraversal_eq]
  refine ⟨⟨?_, ?_⟩, ?_, ?_⟩
  · rintro ⟨x, hx, rfl, rfl⟩
    exact ⟨x, searchLoop_of_mem ho hx⟩
  · rintro ⟨rec, hs⟩
    exact ⟨rec, searchLoop_some hs⟩
  · intro rec hs
    have := searchLoop_some hs
    exact ⟨this.1, this.2.1, this.2.2, search_of_searchLoop_some hs⟩
  · intro habs
    have hn : searchLoop t.root key value = none :=
      searchLoop_none_of_absent (fun x hx hxv => habs ⟨x, hx, hxv⟩)
    exact ⟨hn, search_of_searchLoop_none hn⟩

theorem search_spec_witness :
    AVLTree.Reachable Sample.t3 ∧
      ((∃ x ∈ Sample.t3.inorderTraversal, x.key = "c" ∧ x.value = 3) ↔
        ∃ rec, searchLoop Sample.t3.root "c" 3 = some rec) ∧
      (∀ rec, searchLoop Sample.t3.root "c" 3 = some rec →
        rec ∈ Sample.t3.inorderTraversal ∧ rec.key = "c" ∧ rec.value = 3 ∧
          Sample.t3.search "c" 3 = rec) ∧
      ((¬ ∃ x ∈ Sample.t3.inorderTraversal, x.key = "c" ∧ x.value = 3) →
        searchLoop Sample.t3.root "c" 3 = none ∧ Sample.t3.search "c" 3 = ⟨"", 0⟩) :=
  ⟨sample_t3_reachable, search_spec Sample.t3 "c" 3 sample_t3_reachable⟩

/-- C9: on a tree reachable by `insert` and `deleteNode` calls, `insert(record)`
returns the tree itself when some stored record has the value of `record`;
otherwise it returns a tree whose traversal is the old traversal, which splits
into the smaller and the larger values, with `record` put between the two
parts: the old records plus `record`, in ascending value order. -/
theorem insert_spec (t : AVLTree) (record : Record) (ht : AVLTree.Reachable t) :
    ((∃ x ∈ t.inorderTraversal, x.value = record.value) → t.insert record = some t) ∧
      ((∀ x ∈ t.inorderTraversal, x.value ≠ record.value) →
        ∃ t', t.insert record = some t' ∧
          t'.inorderTraversal =
            t.inorderTraversal.filter (fun x => decide (x.value < record.value)) ++
              record :: t.inorderTraversal.filter (fun x => decide (record.value < x.value)) ∧
          t.inorderTraversal =
            t.inorderTraversal.filter (fun x => decide (x.value < record.value)) ++
              t.inorderTraversal.filter (fun x => decide (record.value < x.value)) ∧
          t'.inorderTraversal.Perm (record :: t.inorderTraversal) ∧
          t'.inorderTraversal.Pairwise (fun a b => a.value < b.value)) := by
  obtain ⟨ha, ho⟩ := reachable_inv ht
  obtain ⟨t', e, _, ho', hsame, hnew⟩ := insertHelper_inv record t.root ha ho
  simp only [inorderTraversal_eq]
  refine ⟨fun hmem => ?_, fun habs => ?_⟩
  · rw [hsame hmem] at e
    simp [AVLTree.insert, e]
  · have hl := hnew habs
    have hsplit := filter_lt_append_filter_gt record.value t.root.toList
      ((ordered_iff_pairwise _).1 ho) habs
    refine ⟨⟨t'⟩, by simp [AVLTree.insert, e], hl, hsplit.symm, ?_,
      (ordered_iff_pairwise _).1 ho'⟩
    show t'.toList.Perm (record :: t.root.toList)
    rw [hl]
    refine List.perm_middle.trans (List.Perm.cons _ ?_)
    rw [hsplit]

theorem insert_spec_witness :
    AVLTree.Reachable Sample.t2 ∧
      (Sample.t2.insert ⟨"z", 2⟩ = some Sample.t2) ∧
      ∃ t', Sample.t2.insert ⟨"c", 3⟩ = some t' ∧
        t'.inorderTraversal =
          Sample.t2.inorderTraversal.filter (fun x => decide (x.value < 3)) ++
            ⟨"c", 3⟩ :: Sample.t2.inorderTraversal.filter (fun x => decide (3 < x.value)) ∧
        Sample.t2.inorderTraversal =
          Sample.t2.inorderTraversal.filter (fun x => decide (x.value < 3)) ++
            Sample.t2.inorderTraversal.filter (fun x => decide (3 < x.value)) ∧
        t'.inorderTraversal.Perm (⟨"c", 3⟩ :: Sample.t2.inorderTraversal) ∧
        t'.inorderTraversal.Pairwise (fun a b => a.value < b.value) :=
  ⟨sample_t2_reachable,
    (insert_spec Sample.t2 ⟨"z", 2⟩ sample_t2_reachable).1 (by decide),
    (insert_spec Sample.t2 ⟨"c", 3⟩ sample_t2_reachable).2 (by decide)⟩

/-- C10: on a tree reachable by `insert` and `deleteNode` calls and for a stored
pair, the traversal after `deleteNode(key, value)` is the old traversal with
that one record erased: the record is gone, every other record is kept once and
in the same order, whichever of the three removal cases applies. -/
theorem deleteNode_spec (t : AVLTree) (key : String) (value : Int)
    (ht : AVLTree.Reachable t) (hmem : (⟨key, value⟩ : Record) ∈ t.inorderTraversal) :
    (t.deleteNode key value).inorderTraversal = t.inorderTraversal.erase ⟨key, value⟩ ∧
      (t.deleteNode key value).inorderTraversal =
        t.inorderTraversal.filter (fun x => decide (x ≠ ⟨key, value⟩)) ∧
      (⟨key, value⟩ : Record) ∉ (t.deleteNode key value).inorderTraversal ∧
      t.inorderTraversal.Perm (⟨key, value⟩ :: (t.deleteNode key value).inorderTraversal) ∧
      (t.deleteNode key value).inorderTraversal.Sublist t.inorderTraversal := by
  have ho := (reachable_inv ht).2
  have hp := (ordered_iff_pairwise _).1 ho
  have hnd : t.root.toList.Nodup :=
    hp.imp (fun h => by intro hab; rw [hab] at h; exact lt_irrefl _ h)
  simp only [inorderTraversal_eq] at hmem ⊢
  have e1 : (t.deleteNode key value).root.toList =
      t.root.toList.filter (fun x => decide (x ≠ ⟨key, value⟩)) := by
    show (deleteNodeHelper t.root key value).toList = _
    rw [deleteNodeHelper_toList t.root ho]
    apply List.filter_congr
    intro x hx
    have : x.value ≠ value ↔ x ≠ ⟨key, value⟩ := by
      constructor
      · intro h1 h2; rw [h2] at h1; exact h1 rfl
      · intro h1 h2; exact h1 (eq_of_value_eq hp hx hmem h2)
    simp only [ne_eq, decide_not, this]
  have e2 : (t.deleteNode key value).root.toList = t.root.toList.erase ⟨key, value⟩ := by
    rw [e1, hnd.erase_eq_filter]
    apply List.filter_congr
    intro x _
    by_cases hxe : x = ⟨key, value⟩ <;> simp [hxe]
  refine ⟨e2, e1, ?_, ?_, ?_⟩
  · rw [e2]
    exact hnd.not_mem_erase
  · rw [e2]
    exact List.perm_cons_erase hmem
  · rw [e2]
    exact List.erase_sublist _ _

theorem deleteNode_spec_witness :
    AVLTree.Reachable Sample.t3 ∧ (⟨"b", 2⟩ : Record) ∈ Sample.t3.inorderTraversal ∧
      (Sample.t3.deleteNode "b" 2).inorderTraversal =
        Sample.t3.inorderTraversal.erase ⟨"b", 2⟩ ∧
      (Sample.t3.deleteNode "b" 2).inorderTraversal =
        Sample.t3.inorderTraversal.filter (fun x => decide (x ≠ ⟨"b", 2⟩)) ∧
      (⟨"b", 2⟩ : Record) ∉ (Sample.t3.deleteNode "b" 2).inorderTraversal ∧
      Sample.t3.inorderTraversal.Perm
        (⟨"b", 2⟩ :: (Sample.t3.deleteNode "b" 2).inorderTraversal) ∧
      (Sample.t3.deleteNode "b" 2).inorderTraversal.Sublist Sample.t3.inorderTraversal :=
  ⟨sample_t3_reachable, by decide,
    deleteNode_spec Sample.t3 "b" 2 sample_t3_reachable (by decide)⟩

/-! ## Further lemmas on deletion, heights and sizes -/

theorem deleteRebalance_eq_self {t : AVLNode} (ht : t.Avl) : deleteRebalance t = t := by
  cases t with
  | nil => rfl
  | node rec l r c =>
    rw [avl_node_iff] at ht
    obtain ⟨hl, hr, hc, hb1, hb2⟩ := ht
    unfold deleteRebalance
    simp only [balance_node, height_node, height_eq_of_avl hl, height_eq_of_avl hr]
    rw [if_neg (by rintro ⟨h, _⟩; omega), if_neg (by rintro ⟨h, _⟩; omega),
      if_neg (by rintro ⟨h, _⟩; omega), if_neg (by rintro ⟨h, _⟩; omega), hc]
    push_cast
    rfl

/-- Deleting a value that is not stored returns the subtree itself. -/
theorem deleteNodeHelper_of_absent (t : AVLNode) (ht : t.Avl) (key : String) (value : Int)
    (habs : ∀ x ∈ t.toList, x.value ≠ value) : deleteNodeHelper t key value = t := by
  induction t with
  | nil => rfl
  | node rec l r c ihl ihr =>
    have ht' := ht
    rw [avl_node_iff] at ht'
    obtain ⟨hl, hr, _, _, _⟩ := ht'
    simp only [toList, List.mem_append, List.mem_cons] at habs
    have hne : rec.value ≠ value := habs rec (Or.inr (Or.inl rfl))
    unfold deleteNodeHelper
    by_cases hlt : value < rec.value
    · simp only [hlt, if_true]
      rw [ihl hl (fun x hx => habs x (Or.inl hx))]
      exact deleteRebalance_eq_self ht
    · have hgt : value > rec.value := by omega
      simp only [hlt, if_false, hgt, if_true]
      rw [ihr hr (fun x hx => habs x (Or.inr (Or.inr hx)))]
      exact deleteRebalance_eq_self ht

theorem heightsLocal_of_avl {t : AVLNode} (h : t.Avl) : t.HeightsLocal := by
  induction t with
  | nil => trivial
  | node rec l r c ihl ihr =>
    rw [avl_node_iff] at h
    obtain ⟨hl, hr, hc, _, _⟩ := h
    refine ⟨ihl hl, ihr hr, ?_⟩
    rw [hc, height_eq_of_avl hl, height_eq_of_avl hr]
    push_cast
    omega

theorem size_eq_length (t : AVLNode) : t.size = t.toList.length := by
  induction t with
  | nil => rfl
  | node rec l r c ihl ihr => simp [size, toList, ihl, ihr]; omega

theorem fib_le_size {t : AVLNode} (h : t.Avl) : Nat.fib (t.structHeight + 2) ≤ t.size + 1 := by
  induction t with
  | nil => simp [structHeight, size]
  | node rec l r c ihl ihr =>
    rw [avl_node_iff] at h
    obtain ⟨hl, hr, _, h1, h2⟩ := h
    have il := ihl hl
    have ir := ihr hr
    simp only [structHeight, size]
    rw [Nat.fib_add_two]
    by_cases hle : r.structHeight ≤ l.structHeight
    · rw [max_eq_left hle]
      have m : Nat.fib (l.structHeight + 1) ≤ Nat.fib (r.structHeight + 2) :=
        Nat.fib_mono (by omega)
      have e : Nat.fib (l.structHeight + 1 + 1) = Nat.fib (l.structHeight + 2) := rfl
      omega
    · rw [max_eq_right (by omega)]
      have m : Nat.fib (r.structHeight + 1) ≤ Nat.fib (l.structHeight + 2) :=
        Nat.fib_mono (by omega)
      have e : Nat.fib (r.structHeight + 1 + 1) = Nat.fib (r.structHeight + 2) := rfl
      omega

theorem two_pow_half_le_fib (n : Nat) : 2 ^ (n / 2) ≤ Nat.fib (n + 2) := by
  induction n using Nat.twoStepInduction with
  | zero => simp
  | one => simp [Nat.fib_add_two]
  | more n ih _ =>
    have e : (n + 2) / 2 = n / 2 + 1 := by omega
    rw [e, pow_succ, Nat.fib_add_two (n := n + 2)]
    have m : Nat.fib (n + 2) ≤ Nat.fib (n + 2 + 1) := Nat.fib_mono (by omega)
    omega

theorem deleteNodeHelper_toList_erase (t : AVLNode) (ho : t.Ordered) (key : String)
    (value : Int) (hmem : (⟨key, value⟩ : Record) ∈ t.toList) :
    (deleteNodeHelper t key value).toList = t.toList.erase ⟨key, value⟩ := by
  have hp := (ordered_iff_pairwise _).1 ho
  have hnd : t.toList.Nodup :=
    hp.imp (fun h => by intro hab; rw [hab] at h; exact lt_irrefl _ h)
  rw [deleteNodeHelper_toList t ho, hnd.erase_eq_filter]
  apply List.filter_congr
  intro x hx
  have : x.value ≠ value ↔ x ≠ ⟨key, value⟩ := by
    constructor
    · intro h1 h2; rw [h2] at h1; exact h1 rfl
    · intro h1 h2; exact h1 (eq_of_value_eq hp hx hmem h2)
  by_cases hxe : x = ⟨key, value⟩
  · simp [hxe]
  · have hv : ¬ x.value = value := this.2 hxe
    simp [hxe, hv]

/-- The two outcomes of `deleteRecord` on a reachable database: nothing changes,
or a stored pair is erased from the traversal and the counter goes down by one. -/
theorem deleteRecord_cases (db : IndexedDatabase) (key : String) (value : Int)
    (hdb : IndexedDatabase.Reachable db) :
    db.deleteRecord key value = db ∨
      (db.deleteRecord key value = ⟨db.index.deleteNode key value, IndexedDatabase.wrapInt (db.inv - 1)⟩ ∧
        (⟨key, value⟩ : Record) ∈ db.inorderTraversal ∧
        (db.deleteRecord key value).inorderTraversal =
          db.inorderTraversal.erase ⟨key, value⟩) := by
  obtain ⟨_, ho⟩ := reachable_inv (index_reachable hdb)
  by_cases hk : (db.index.search key value).key = ""
  · left
    simp [IndexedDatabase.deleteRecord, hk]
  · right
    have e : db.deleteRecord key value = ⟨db.index.deleteNode key value, IndexedDatabase.wrapInt (db.inv - 1)⟩ := by
      simp [IndexedDatabase.deleteRecord, hk]
    cases hs : searchLoop db.index.root key value with
    | none => exact absurd (by rw [search_of_searchLoop_none hs]) hk
    | some rec =>
      obtain ⟨hm, hrk, hrv⟩ := searchLoop_some hs
      have hrec : rec = ⟨key, value⟩ := by
        cases rec; simp_all
      rw [hrec] at hm
      refine ⟨e, ?_, ?_⟩
      · simpa [IndexedDatabase.inorderTraversal, inorderTraversal_eq] using hm
      · rw [e]
        simp only [IndexedDatabase.inorderTraversal, inorderTraversal_eq]
        exact deleteNodeHelper_toList_erase db.index.root ho key value hm

theorem length_le_after_insert {db db' : IndexedDatabase} {record : Record}
    (hdb : IndexedDatabase.Reachable db) (e : db.insert record = some db') :
    db'.inv = IndexedDatabase.wrapInt (db.inv + 1) ∧
      db'.inorderTraversal.length ≤ db.inorderTraversal.length + 1 := by
  obtain ⟨ha, ho⟩ := reachable_inv (index_reachable hdb)
  obtain ⟨t', e', _, _, hsame, hnew⟩ := insertHelper_inv record db.index.root ha ho
  have hdb' : db' = ⟨⟨t'⟩, IndexedDatabase.wrapInt (db.inv + 1)⟩ := by
    simp [IndexedDatabase.insert, AVLTree.insert, e'] at e
    exact e.symm
  subst hdb'
  refine ⟨rfl, ?_⟩
  simp only [IndexedDatabase.inorderTraversal, inorderTraversal_eq]
  by_cases hm : ∃ x ∈ db.index.root.toList, x.value = record.value
  · rw [hsame hm]; omega
  · have habs : ∀ x ∈ db.index.root.toList, x.value ≠ record.value :=
      fun x hx hxv => hm ⟨x, hx, hxv⟩
    have hsplit := filter_lt_append_filter_gt record.value db.index.root.toList
      ((ordered_iff_pairwise _).1 ho) habs
    have hlen := congrArg List.length hsplit
    rw [hnew habs]
    simp only [List.length_append, List.length_cons] at hlen ⊢
    omega

/-! ## The counter -/

theorem wrapInt_of_small {x : Int} (h1 : -2147483648 ≤ x) (h2 : x < 2147483648) :
    IndexedDatabase.wrapInt x = x := by
  unfold IndexedDatabase.wrapInt
  omega

theorem insertAll_reachable {db db' : IndexedDatabase} (records : List Record)
    (hdb : IndexedDatabase.Reachable db) (e : db.insertAll records = some db') :
    IndexedDatabase.Reachable db' := by
  induction records generalizing db with
  | nil =>
    simp only [IndexedDatabase.insertAll, List.foldl_nil, Option.some.injEq] at e
    rw [← e]; exact hdb
  | cons r rs ih =>
    simp only [IndexedDatabase.insertAll, List.foldl_cons, Option.some_bind] at e
    cases hi : db.insert r with
    | none =>
      rw [hi] at e
      have : ∀ l : List Record,
          l.foldl (fun d record => d.bind fun d => IndexedDatabase.insert d record)
            (none : Option IndexedDatabase) = none := by
        intro l
        induction l with
        | nil => rfl
        | cons x xs ihx => simpa [List.foldl_cons] using ihx
      rw [this] at e
      exact absurd e (by simp)
    | some d =>
      rw [hi] at e
      exact ih (IndexedDatabase.Reachable.insert r hdb hi) e

theorem reachable_of_reachableIn {n : Nat} {db : IndexedDatabase}
    (h : IndexedDatabase.ReachableIn n db) : IndexedDatabase.Reachable db := by
  induction h with
  | empty => exact IndexedDatabase.Reachable.empty
  | insert record _ e ih => exact IndexedDatabase.Reachable.insert record ih e
  | deleteRecord key value _ ih => exact IndexedDatabase.Reachable.deleteRecord key value ih
  | clearDatabase _ ih => exact IndexedDatabase.Reachable.clearDatabase ih

/-- Below the overflow of the counter: after fewer than `2^31` calls of `insert`
since the construction or the last `clearDatabase`, the counter is at least the
length of the traversal and at most the number of those calls. -/
theorem counter_bounds {n : Nat} {db : IndexedDatabase}
    (h : IndexedDatabase.ReachableIn n db) (hn : n < 2147483648) :
    (db.inorderTraversal.length : Int) ≤ db.inv ∧ db.inv ≤ n := by
  induction h with
  | empty => exact ⟨le_refl (0 : Int), le_refl (0 : Int)⟩
  | @insert n db db' record hprev e ih =>
    obtain ⟨h1, h2⟩ := ih (by omega)
    obtain ⟨e1, e2⟩ := length_le_after_insert (reachable_of_reachableIn hprev) e
    have hw : IndexedDatabase.wrapInt (db.inv + 1) = db.inv + 1 :=
      wrapInt_of_small (by omega) (by omega)
    rw [e1, hw]
    push_cast
    omega
  | @deleteRecord n db key value hprev ih =>
    obtain ⟨h1, h2⟩ := ih hn
    rcases deleteRecord_cases db key value (reachable_of_reachableIn hprev) with h | ⟨h, hm, ht⟩
    · rw [h]; exact ⟨h1, h2⟩
    · have hpos : 0 < db.inorderTraversal.length := List.length_pos_of_mem hm
      have hw : IndexedDatabase.wrapInt (db.inv - 1) = db.inv - 1 :=
        wrapInt_of_small (by omega) (by omega)
      rw [ht, List.length_erase_of_mem hm, h]
      simp only [hw]
      omega
  | clearDatabase _ _ => exact ⟨le_refl (0 : Int), le_refl (0 : Int)⟩

theorem insertAll_replicate_t1 (n : Nat) (c : Int) (h1 : -2147483648 ≤ c)
    (h2 : c < 2147483648) :
    IndexedDatabase.insertAll ⟨Sample.t1, c⟩ (List.replicate n ⟨"a", 1⟩) =
      some ⟨Sample.t1, IndexedDatabase.wrapInt (c + n)⟩ := by
  induction n generalizing c with
  | zero =>
    simp only [List.replicate_zero, IndexedDatabase.insertAll, List.foldl_nil, Nat.cast_zero,
      add_zero]
    rw [wrapInt_of_small h1 h2]
  | succ n ih =>
    have hins : IndexedDatabase.insert ⟨Sample.t1, c⟩ ⟨"a", 1⟩ =
        some ⟨Sample.t1, IndexedDatabase.wrapInt (c + 1)⟩ := by
      have : Sample.t1.insert ⟨"a", 1⟩ = some Sample.t1 := by decide
      simp [IndexedDatabase.insert, this]
    have hstep := ih (IndexedDatabase.wrapInt (c + 1))
      (by unfold IndexedDatabase.wrapInt; omega) (by unfold IndexedDatabase.wrapInt; omega)
    have hw : IndexedDatabase.wrapInt (IndexedDatabase.wrapInt (c + 1) + n) =
        IndexedDatabase.wrapInt (c + (n + 1 : Nat)) := by
      unfold IndexedDatabase.wrapInt
      push_cast
      omega
    rw [List.replicate_succ]
    unfold IndexedDatabase.insertAll at hstep ⊢
    rw [List.foldl_cons, Option.some_bind, hins, hstep, hw]

theorem insertAll_wraps :
    IndexedDatabase.empty.insertAll (List.replicate 2147483648 ⟨"a", 1⟩) =
      some Sample.dbWrapped := by
  have hn : (2147483648 : Nat) = 2147483647 + 1 := by norm_num
  have hins : IndexedDatabase.empty.insert ⟨"a", 1⟩ = some ⟨Sample.t1, 1⟩ := by decide
  have hrest := insertAll_replicate_t1 2147483647 1 (by norm_num) (by norm_num)
  have hw : IndexedDatabase.wrapInt (1 + ((2147483647 : Nat) : Int)) = -2147483648 := by
    unfold IndexedDatabase.wrapInt
    norm_num
  rw [hw] at hrest
  rw [hn, List.replicate_succ]
  unfold IndexedDatabase.insertAll at hrest ⊢
  rw [List.foldl_cons, Option.some_bind, hins, hrest]
  rfl

theorem sample_dbWrapped_reachable : IndexedDatabase.Reachable Sample.dbWrapped :=
  insertAll_reachable _ IndexedDatabase.Reachable.empty insertAll_wraps

/-! ## The k nearest records -/

theorem stableSort_isStdSort : IndexedDatabase.IsStdSort IndexedDatabase.stableSort := by
  intro l
  haveI : IsTotal (Int × Record) (fun a b => a.1 ≤ b.1) := ⟨fun a b => le_total a.1 b.1⟩
  haveI : IsTrans (Int × Record) (fun a b => a.1 ≤ b.1) := ⟨fun _ _ _ h1 h2 => le_trans h1 h2⟩
  exact ⟨List.perm_insertionSort _ l, List.sorted_insertionSort _ l⟩

theorem tiesDescendingSort_isStdSort :
    IndexedDatabase.IsStdSort IndexedDatabase.tiesDescendingSort := by
  intro l
  haveI : IsTotal (Int × Record)
      (fun a b => a.1 < b.1 ∨ (a.1 = b.1 ∧ b.2.value ≤ a.2.value)) :=
    ⟨fun a b => by
      rcases lt_trichotomy a.1 b.1 with h | h | h
      · exact Or.inl (Or.inl h)
      · rcases le_total b.2.value a.2.value with h2 | h2
        · exact Or.inl (Or.inr ⟨h, h2⟩)
        · exact Or.inr (Or.inr ⟨h.symm, h2⟩)
      · exact Or.inr (Or.inl h)⟩
  haveI : IsTrans (Int × Record)
      (fun a b => a.1 < b.1 ∨ (a.1 = b.1 ∧ b.2.value ≤ a.2.value)) :=
    ⟨fun a b c h1 h2 => by
      rcases h1 with h1 | ⟨h1, h1'⟩ <;> rcases h2 with h2 | ⟨h2, h2'⟩
      · exact Or.inl (lt_trans h1 h2)
      · exact Or.inl (by omega)
      · exact Or.inl (by omega)
      · exact Or.inr ⟨by omega, by omega⟩⟩
  refine ⟨List.perm_insertionSort _ l, ?_⟩
  have h := List.sorted_insertionSort
    (fun a b : Int × Record => a.1 < b.1 ∨ (a.1 = b.1 ∧ b.2.value ≤ a.2.value)) l
  exact List.Pairwise.imp (fun {a b} hab => by
    rcases hab with h1 | ⟨h1, _⟩
    · exact le_of_lt h1
    · exact le_of_eq h1) h

theorem findKNearestKeys_length (sort : List (Int × Record) → List (Int × Record))
    (hs : IndexedDatabase.IsStdSort sort) (db : IndexedDatabase) (key k : Int) :
    (db.findKNearestKeys sort key k).length = min k.toNat db.inorderTraversal.length := by
  unfold IndexedDatabase.findKNearestKeys
  simp only [List.length_reverse, List.length_map, List.length_take]
  rw [(hs _).1.length_eq, List.length_map]
  rfl

/-- Two sorts that meet the contract agree on a list whose first components are
pairwise different. -/
theorem stdSort_unique (sort : List (Int × Record) → List (Int × Record))
    (hs : IndexedDatabase.IsStdSort sort) (l : List (Int × Record))
    (hnd : (l.map Prod.fst).Nodup) : sort l = IndexedDatabase.stableSort l := by
  have strict : ∀ m : List (Int × Record), m.Perm l → m.Pairwise (fun a b => a.1 ≤ b.1) →
      m.Pairwise (fun a b => a.1 < b.1) := by
    intro m hm hp
    have hn : (m.map Prod.fst).Nodup := (hm.map Prod.fst).nodup_iff.2 hnd
    rw [List.Nodup, List.pairwise_map] at hn
    exact (hp.and hn).imp (fun h => lt_of_le_of_ne h.1 h.2)
  haveI : IsAntisymm (Int × Record) (fun a b => a.1 < b.1) :=
    ⟨fun a b h1 h2 => absurd h1 (not_lt_of_gt h2)⟩
  have h1 := hs l
  have h2 := stableSort_isStdSort l
  exact List.eq_of_perm_of_sorted (h1.1.trans h2.1.symm) (strict _ h1.1 h1.2)
    (strict _ h2.1 h2.2)

/-- Without overflow the computed distance is the absolute difference. -/
theorem distance_of_small {value key : Int} (h : |value - key| < 2147483648) :
    IndexedDatabase.distance value key = |value - key| := by
  have h' := abs_lt.1 h
  unfold IndexedDatabase.distance
  rw [wrapInt_of_small (by omega) h'.2, Int.natCast_natAbs, wrapInt_of_small _ h]
  have := abs_nonneg (value - key)
  omega

/-- The result of `findKNearestKeys` is the reversed prefix of a rearrangement of
the traversal that is sorted by the computed distance. -/
theorem findKNearestKeys_prefix (sort : List (Int × Record) → List (Int × Record))
    (hs : IndexedDatabase.IsStdSort sort) (db : IndexedDatabase) (key k : Int) :
    ∃ S : List Record, S.Perm db.inorderTraversal ∧
      S.Pairwise (fun a b =>
        IndexedDatabase.distance a.value key ≤ IndexedDatabase.distance b.value key) ∧
      db.findKNearestKeys sort key k = (S.take k.toNat).reverse := by
  let D := db.index.inorderTraversal.map
    fun record => (IndexedDatabase.distance record.value key, record)
  obtain ⟨hperm, hsorted⟩ := hs D
  refine ⟨(sort D).map Prod.snd, ?_, ?_, ?_⟩
  · have h := hperm.map Prod.snd
    have e : D.map Prod.snd = db.inorderTraversal := by
      simp [D, IndexedDatabase.inorderTraversal, List.map_map, Function.comp_def]
    rwa [e] at h
  · rw [List.pairwise_map]
    refine List.Pairwise.imp_of_mem ?_ hsorted
    intro a b ha hb hab
    have ha' : a.1 = IndexedDatabase.distance a.2.value key := by
      obtain ⟨r, _, hr⟩ := List.mem_map.1 (hperm.subset ha)
      rw [← hr]
    have hb' : b.1 = IndexedDatabase.distance b.2.value key := by
      obtain ⟨r, _, hr⟩ := List.mem_map.1 (hperm.subset hb)
      rw [← hr]
    rw [← ha', ← hb']
    exact hab
  · unfold IndexedDatabase.findKNearestKeys
    simp only [List.map_take]

/-- Without overflow, on a reachable database: every record returned by
`findKNearestKeys` is stored, is returned once, and is at least as near to the
target as every stored record that is not returned. -/
theorem findKNearestKeys_nearest (sort : List (Int × Record) → List (Int × Record))
    (hs : IndexedDatabase.IsStdSort sort) (db : IndexedDatabase) (key k : Int)
    (hdb : IndexedDatabase.Reachable db)
    (hno : ∀ r ∈ db.inorderTraversal, |r.value - key| < 2147483648) :
    (∀ x ∈ db.findKNearestKeys sort key k, x ∈ db.inorderTraversal) ∧
      (db.findKNearestKeys sort key k).Nodup ∧
      ∀ x ∈ db.findKNearestKeys sort key k, ∀ y ∈ db.inorderTraversal,
        y ∉ db.findKNearestKeys sort key k → |x.value - key| ≤ |y.value - key| := by
  obtain ⟨S, hperm, hsorted, hres⟩ := findKNearestKeys_prefix sort hs db key k
  have hp : db.inorderTraversal.Pairwise (fun a b => a.value < b.value) := by
    have := (ordered_iff_pairwise _).1 (reachable_inv (index_reachable hdb)).2
    rwa [← inorderTraversal_eq] at this
  have hnd : db.inorderTraversal.Nodup :=
    hp.imp (fun h => by intro hab; rw [hab] at h; exact lt_irrefl _ h)
  have hSnd : S.Nodup := hperm.nodup_iff.2 hnd
  rw [hres]
  refine ⟨?_, ?_, ?_⟩
  · intro x hx
    exact hperm.subset ((List.take_sublist _ _).subset (List.mem_reverse.1 hx))
  · exact List.nodup_reverse.2 (hSnd.sublist (List.take_sublist _ _))
  · intro x hx y hy hny
    have hx' : x ∈ S.take k.toNat := List.mem_reverse.1 hx
    have hyS : y ∈ S := hperm.symm.subset hy
    rw [← List.take_append_drop k.toNat S] at hyS hsorted
    have hyd : y ∈ S.drop k.toNat := by
      rcases List.mem_append.1 hyS with h | h
      · exact absurd (List.mem_reverse.2 h) hny
      · exact h
    have := (List.pairwise_append.1 hsorted).2.2 x hx' y hyd
    rwa [distance_of_small (hno x (hperm.subset ((List.take_sublist _ _).subset hx'))),
      distance_of_small (hno y hy)] at this

/-- When the computed distances of the stored records are pairwise different,
the result does not depend on which conforming sort is used. -/
theorem findKNearestKeys_eq_stable (sort : List (Int × Record) → List (Int × Record))
    (hs : IndexedDatabase.IsStdSort sort) (db : IndexedDatabase) (key k : Int)
    (hnd : (db.inorderTraversal.map
      (fun r => IndexedDatabase.distance r.value key)).Nodup) :
    db.findKNearestKeys sort key k =
      db.findKNearestKeys IndexedDatabase.stableSort key k := by
  unfold IndexedDatabase.findKNearestKeys
  simp only
  rw [stdSort_unique sort hs]
  simpa [List.map_map, Function.comp_def, IndexedDatabase.inorderTraversal] using hnd

theorem sample_scenario_reachable : IndexedDatabase.Reachable Sample.scenario :=
  IndexedDatabase.Reachable.insert ⟨"e", 15⟩
    (IndexedDatabase.Reachable.insert ⟨"d", 6⟩
      (IndexedDatabase.Reachable.insert ⟨"c", 5⟩
        (IndexedDatabase.Reachable.insert ⟨"b", 20⟩
          (IndexedDatabase.Reachable.insert ⟨"a", 10⟩ IndexedDatabase.Reachable.empty
            (by decide : IndexedDatabase.empty.insert ⟨"a", 10⟩ =
              some ⟨⟨AVLNode.node ⟨"a", 10⟩ AVLNode.nil AVLNode.nil 1⟩, 1⟩))
          (by decide : _ = some ⟨⟨AVLNode.node ⟨"a", 10⟩ AVLNode.nil
            (AVLNode.node ⟨"b", 20⟩ AVLNode.nil AVLNode.nil 1) 2⟩, 2⟩))
        (by decide : _ = some ⟨⟨AVLNode.node ⟨"a", 10⟩
          (AVLNode.node ⟨"c", 5⟩ AVLNode.nil AVLNode.nil 1)
          (AVLNode.node ⟨"b", 20⟩ AVLNode.nil AVLNode.nil 1) 2⟩, 3⟩))
      (by decide : _ = some ⟨⟨AVLNode.node ⟨"a", 10⟩
        (AVLNode.node ⟨"c", 5⟩ AVLNode.nil (AVLNode.node ⟨"d", 6⟩ AVLNode.nil AVLNode.nil 1) 2)
        (AVLNode.node ⟨"b", 20⟩ AVLNode.nil AVLNode.nil 1) 3⟩, 4⟩))
    (by decide)

theorem sample_dbTie_reachable : IndexedDatabase.Reachable Sample.dbTie :=
  IndexedDatabase.Reachable.insert ⟨"q", 10⟩
    (IndexedDatabase.Reachable.insert ⟨"p", 8⟩ IndexedDatabase.Reachable.empty
      (by decide : IndexedDatabase.empty.insert ⟨"p", 8⟩ =
        some ⟨⟨AVLNode.node ⟨"p", 8⟩ AVLNode.nil AVLNode.nil 1⟩, 1⟩))
    (by decide)

theorem sample_dbFar_reachable : IndexedDatabase.Reachable Sample.dbFar :=
  IndexedDatabase.Reachable.insert ⟨"b", 0⟩
    (IndexedDatabase.Reachable.insert ⟨"a", 2147483647⟩ IndexedDatabase.Reachable.empty
      (by decide : IndexedDatabase.empty.insert ⟨"a", 2147483647⟩ =
        some ⟨⟨AVLNode.node ⟨"a", 2147483647⟩ AVLNode.nil AVLNode.nil 1⟩, 1⟩))
    (by decide)

/-! ## The guards of the rotations are never taken -/

theorem insertRebalanceChecked_balanced (rec record : Record) {l r : AVLNode}
    (hl : l.Avl) (hr : r.Avl) (h1 : l.structHeight ≤ r.structHeight + 1)
    (h2 : r.structHeight ≤ l.structHeight + 1) :
    insertRebalanceChecked rec l r record = insertRebalance rec l r record := by
  rw [insertRebalance_balanced rec record hl hr h1 h2]
  unfold insertRebalanceChecked
  simp only [balance_node, height_eq_of_avl hl, height_eq_of_avl hr]
  rw [if_neg (by omega), if_neg (by omega)]

theorem insertRebalanceChecked_left (rec record : Record) {l r : AVLNode}
    (hl : l.Avl) (hr : r.Avl) (h : l.structHeight = r.structHeight + 2)
    (hv : l.Heavy record) :
    insertRebalanceChecked rec l r record = insertRebalance rec l r record := by
  cases l with
  | nil => simp [Heavy] at hv
  | node lrec ll lr lh =>
    rw [avl_node_iff] at hl
    obtain ⟨hll, hlr, hlh, hb1, hb2⟩ := hl
    have er := height_eq_of_avl hr
    simp only [structHeight] at h
    simp only [Heavy] at hv
    have hbal : lh - height r > 1 := by rw [hlh, er]; push_cast; omega
    unfold insertRebalanceChecked insertRebalance
    simp only [balance_node, height_node, hbal, if_true]
    rcases hv with ⟨hlt, hh⟩ | ⟨hgt, hh⟩
    · simp only [hlt, if_true, rotateRightChecked]
    · have hnlt : ¬ record.value < lrec.value := by omega
      simp only [hnlt, if_false, hgt, if_true]
      cases lr with
      | nil => simp [structHeight] at hh
      | node mrec ml mr mh =>
        simp only [rotateLeftChecked, rotateLeft, Option.some_bind, rotateRightChecked]

theorem insertRebalanceChecked_right (rec record : Record) {l r : AVLNode}
    (hl : l.Avl) (hr : r.Avl) (h : r.structHeight = l.structHeight + 2)
    (hv : r.Heavy record) :
    insertRebalanceChecked rec l r record = insertRebalance rec l r record := by
  cases r with
  | nil => simp [Heavy] at hv
  | node rrec rl rr rh =>
    rw [avl_node_iff] at hr
    obtain ⟨hrl, hrr, hrh, hb1, hb2⟩ := hr
    have el := height_eq_of_avl hl
    simp only [structHeight] at h
    simp only [Heavy] at hv
    have hbal1 : ¬ height l - rh > 1 := by rw [hrh, el]; push_cast; omega
    have hbal2 : height l - rh < -1 := by rw [hrh, el]; push_cast; omega
    unfold insertRebalanceChecked insertRebalance
    simp only [balance_node, height_node, hbal1, hbal2, if_true, if_false]
    rcases hv with ⟨hlt, hh⟩ | ⟨hgt, hh⟩
    · simp only [hlt, if_true]
      cases rl with
      | nil => simp [structHeight] at hh
      | node mrec ml mr mh =>
        simp only [rotateRightChecked, rotateRight, Option.some_bind, rotateLeftChecked]
    · have hnlt : ¬ record.value < rrec.value := by omega
      simp only [hnlt, if_false, hgt, if_true, rotateLeftChecked]

/-- On a subtree with correct cached heights and balance, the instrumented
insertion never stops: no rotation guard fires and no absent child is read. -/
theorem insertHelperChecked_eq (record : Record) (t : AVLNode) (ht : t.Avl) :
    insertHelperChecked t record = insertHelper t record := by
  induction t with
  | nil => rfl
  | node rec l r c ihl ihr =>
    rw [avl_node_iff] at ht
    obtain ⟨hl, hr, hc, hb1, hb2⟩ := ht
    unfold insertHelperChecked insertHelper
    by_cases hlt : record.value < rec.value
    · simp only [hlt, if_true]
      obtain ⟨l', el', hl', hgrow⟩ := insertHelper_avl record l hl
      rw [ihl hl, el', Option.some_bind, Option.some_bind]
      by_cases hbal : l'.structHeight ≤ r.structHeight + 1
      · exact insertRebalanceChecked_balanced rec record hl' hr hbal (by omega)
      · have hv : l'.Heavy record := by
          rcases hgrow with h | ⟨h, hn | hv⟩
          · omega
          · subst hn; simp [structHeight] at h; omega
          · exact hv
        exact insertRebalanceChecked_left rec record hl' hr (by omega) hv
    · by_cases hgt : record.value > rec.value
      · simp only [hlt, if_false, hgt, if_true]
        obtain ⟨r', er', hr', hgrow⟩ := insertHelper_avl record r hr
        rw [ihr hr, er', Option.some_bind, Option.some_bind]
        by_cases hbal : r'.structHeight ≤ l.structHeight + 1
        · exact insertRebalanceChecked_balanced rec record hl hr' (by omega) hbal
        · have hv : r'.Heavy record := by
            rcases hgrow with h | ⟨h, hn | hv⟩
            · omega
            · subst hn; simp [structHeight] at h; omega
            · exact hv
          exact insertRebalanceChecked_right rec record hl hr' (by omega) hv
      · simp only [hlt, if_false, hgt]

theorem deleteRebalanceChecked_eq (rec : Record) (c : Int) {l r : AVLNode}
    (hl : l.Avl) (hr : r.Avl) (h1 : l.structHeight ≤ r.structHeight + 2)
    (h2 : r.structHeight ≤ l.structHeight + 2) :
    deleteRebalanceChecked (node rec l r c) = some (deleteRebalance (node rec l r c)) := by
  have el := height_eq_of_avl hl
  have er := height_eq_of_avl hr
  by_cases hL : l.structHeight = r.structHeight + 2
  · have hbal : height l - height r > 1 := by rw [el, er]; omega
    cases l with
    | nil => simp [structHeight] at hL
    | node lrec ll lr lh =>
      rw [avl_node_iff] at hl
      obtain ⟨hll, hlr, hlh, hb1, hb2⟩ := hl
      have ell := height_eq_of_avl hll
      have elr := height_eq_of_avl hlr
      unfold deleteRebalanceChecked deleteRebalance
      simp only [balance_node, hbal, if_true, true_and]
      by_cases hbl : height ll - height lr ≥ 0
      · simp only [hbl, if_true, rotateRightChecked]
      · have hlt : height ll - height lr < 0 := by omega
        simp only [hbl, if_false, hlt, if_true]
        cases lr with
        | nil =>
          rw [ell, height_nil] at hlt
          omega
        | node mrec ml mr mh =>
          simp only [rotateLeftChecked, rotateLeft, Option.some_bind, rotateRightChecked]
  · by_cases hR : r.structHeight = l.structHeight + 2
    · have hbal1 : ¬ height l - height r > 1 := by rw [el, er]; omega
      have hbal2 : height l - height r < -1 := by rw [el, er]; omega
      cases r with
      | nil => simp [structHeight] at hR
      | node rrec rl rr rh =>
        rw [avl_node_iff] at hr
        obtain ⟨hrl, hrr, hrh, hb1, hb2⟩ := hr
        have erl := height_eq_of_avl hrl
        have err := height_eq_of_avl hrr
        unfold deleteRebalanceChecked deleteRebalance
        simp only [balance_node, hbal1, hbal2, if_true, if_false, true_and, false_and]
        by_cases hbr : height rl - height rr ≤ 0
        · simp only [hbr, if_true, rotateLeftChecked]
        · have hgt : height rl - height rr > 0 := by omega
          simp only [hbr, if_false, hgt, if_true]
          cases rl with
          | nil =>
            rw [err, height_nil] at hgt
            omega
          | node mrec ml mr mh =>
            simp only [rotateRightChecked, rotateRight, Option.some_bind, rotateLeftChecked]
    · have hbal1 : ¬ height l - height r > 1 := by rw [el, er]; omega
      have hbal2 : ¬ height l - height r < -1 := by rw [el, er]; omega
      unfold deleteRebalanceChecked deleteRebalance
      simp only [balance_node, hbal1, hbal2, if_false, false_and]

theorem deleteRebalanceChecked_of_avl {t : AVLNode} (ht : t.Avl) :
    deleteRebalanceChecked t = some (deleteRebalance t) := by
  cases t with
  | nil => rfl
  | node rec l r c =>
    rw [avl_node_iff] at ht
    obtain ⟨hl, hr, _, hb1, hb2⟩ := ht
    exact deleteRebalanceChecked_eq rec c hl hr (by omega) (by omega)

/-- On a subtree with correct cached heights and balance, the instrumented
deletion never stops: no rotation guard fires and no absent child is read. -/
theorem deleteNodeHelperChecked_eq (t : AVLNode) (ht : t.Avl) (key : String) (value : Int) :
    deleteNodeHelperChecked t key value = some (deleteNodeHelper t key value) := by
  induction t generalizing key value with
  | nil => rfl
  | node rec l r c ihl ihr =>
    rw [avl_node_iff] at ht
    obtain ⟨hl, hr, hc, hb1, hb2⟩ := ht
    unfold deleteNodeHelperChecked deleteNodeHelper
    by_cases hlt : value < rec.value
    · simp only [hlt, if_true]
      obtain ⟨hl', hh⟩ := deleteNodeHelper_avl l hl key value
      rw [ihl hl, Option.some_bind]
      exact deleteRebalanceChecked_eq rec c hl' hr (by omega) (by omega)
    · by_cases hgt : value > rec.value
      · simp only [hlt, if_false, hgt, if_true]
        obtain ⟨hr', hh⟩ := deleteNodeHelper_avl r hr key value
        rw [ihr hr, Option.some_bind]
        exact deleteRebalanceChecked_eq rec c hl hr' (by omega) (by omega)
      · simp only [hlt, if_false, hgt]
        by_cases hnil : l = nil ∨ r = nil
        · simp only [hnil, if_true]
          by_cases hln : l = nil
          · subst hln
            simp only [ne_eq, not_true_eq_false, if_false]
            exact deleteRebalanceChecked_of_avl hr
          · simp only [ne_eq, hln, not_false_eq_true, if_true]
            exact deleteRebalanceChecked_of_avl hl
        · simp only [hnil, if_false]
          cases r with
          | nil => simp at hnil
          | node rrec rl rr rh =>
            simp only
            obtain ⟨hr', hh⟩ := deleteNodeHelper_avl _ hr (leftmost rrec rl).key
              (leftmost rrec rl).value
            rw [ihr hr, Option.some_bind]
            exact deleteRebalanceChecked_eq (leftmost rrec rl) c hl hr' (by omega) (by omega)

/-- The instrumented code does stop on an ill-formed tree: with a cached height
of `-3` in the left grandchild, `deleteRebalance` calls `rotateLeft` on a node
without right child. -/
theorem rotation_guard_fires_on_ill_formed :
    deleteRebalanceChecked
        (node ⟨"r", 9⟩ (node ⟨"l", 5⟩ (node ⟨"g", 1⟩ nil nil (-3)) nil 5) nil 6) = none ∧
      rotateLeftChecked (node ⟨"l", 5⟩ (node ⟨"g", 1⟩ nil nil (-3)) nil 5) = none := by
  decide

/-! ## The claims, continued -/

/-- C11: `deleteNode(key, value)` removes the record of that value whatever its
key: on the reachable tree holding `("a", 1)`, `("b", 2)`, `("c", 3)`, no record
has the key `"x"` with the value `2`, and `deleteNode("x", 2)` still removes
`("b", 2)`. -/
theorem deleteNode_ignores_key :
    AVLTree.Reachable Sample.t3 ∧
      (∀ x ∈ Sample.t3.inorderTraversal, ¬ (x.key = "x" ∧ x.value = 2)) ∧
      (Sample.t3.deleteNode "x" 2).inorderTraversal = [⟨"a", 1⟩, ⟨"c", 3⟩] ∧
      (Sample.t3.deleteNode "x" 2).inorderTraversal ≠ Sample.t3.inorderTraversal ∧
      Sample.t3.deleteNode "x" 2 ≠ Sample.t3 :=
  ⟨sample_t3_reachable, by decide, by decide, by decide, by decide⟩

/-- C14: in every tree reachable by `insert` and `deleteNode` calls, with `n`
stored records and structural height `h`, `Fib(h + 2) ≤ n + 1`; hence
`2 ^ (h / 2) ≤ n + 1` and `h ≤ 2 * log2(n + 1) + 1`, with the base-2 logarithm
rounded down. -/
theorem height_logarithmic (t : AVLTree) (ht : AVLTree.Reachable t) :
    Nat.fib (t.root.structHeight + 2) ≤ t.inorderTraversal.length + 1 ∧
      2 ^ (t.root.structHeight / 2) ≤ t.inorderTraversal.length + 1 ∧
      t.root.structHeight ≤ 2 * Nat.log 2 (t.inorderTraversal.length + 1) + 1 := by
  have hf := fib_le_size (reachable_inv ht).1
  rw [size_eq_length, ← inorderTraversal_eq] at hf
  have hp := le_trans (two_pow_half_le_fib t.root.structHeight) hf
  have hl := Nat.le_log_of_pow_le (by decide : 1 < 2) hp
  exact ⟨hf, hp, by omega⟩

theorem height_logarithmic_witness :
    AVLTree.Reachable Sample.t3 ∧
      Nat.fib (Sample.t3.root.structHeight + 2) ≤ Sample.t3.inorderTraversal.length + 1 ∧
      2 ^ (Sample.t3.root.structHeight / 2) ≤ Sample.t3.inorderTraversal.length + 1 ∧
      Sample.t3.root.structHeight ≤
        2 * Nat.log 2 (Sample.t3.inorderTraversal.length + 1) + 1 :=
  ⟨sample_t3_reachable, height_logarithmic Sample.t3 sample_t3_reachable⟩

/-- C15: after `clearDatabase()` on any database, `countRecords()` is `0`,
`inorderTraversal()` is empty, and the state is that of a freshly constructed
database. -/
theorem clearDatabase_spec (db : IndexedDatabase) :
    db.clearDatabase.countRecords = 0 ∧ db.clearDatabase.inorderTraversal = [] ∧
      db.clearDatabase = IndexedDatabase.empty :=
  ⟨rfl, rfl, rfl⟩

/-- C17: in every tree reachable by `insert` and `deleteNode` calls, the cached
height of every node is one plus the larger cached height of its children (`0`
for an absent child), equals the structural height of the node, and the cached
height read at the root by `height` is the structural height of the tree. -/
theorem cached_heights (t : AVLTree) (ht : AVLTree.Reachable t) :
    t.root.HeightsLocal ∧ t.root.HeightsCached ∧
      height t.root = (t.root.structHeight : Int) :=
  have ha := (reachable_inv ht).1
  ⟨heightsLocal_of_avl ha, heightsCached_of_avl ha, height_eq_of_avl ha⟩

theorem cached_heights_witness :
    AVLTree.Reachable Sample.t3 ∧ Sample.t3.root.HeightsLocal ∧
      Sample.t3.root.HeightsCached ∧
      height Sample.t3.root = (Sample.t3.root.structHeight : Int) :=
  ⟨sample_t3_reachable, cached_heights Sample.t3 sample_t3_reachable⟩

/-- C12: the number of records returned is `min(k, length of the traversal)`,
not `min(k, countRecords())`: on the reachable database obtained by
`insert(("a", 1))` and `insert(("b", 1))`, `countRecords()` is `2` and
`findKNearestKeys(0, 2)` returns one record. -/
theorem findKNearestKeys_count_mismatch :
    IndexedDatabase.Reachable Sample.dbDup ∧
      IndexedDatabase.IsStdSort IndexedDatabase.stableSort ∧
      Sample.dbDup.findKNearestKeys IndexedDatabase.stableSort 0 2 = [⟨"a", 1⟩] ∧
      (Sample.dbDup.findKNearestKeys IndexedDatabase.stableSort 0 2).length = 1 ∧
      min 2 Sample.dbDup.countRecords = 2 :=
  ⟨sample_dbDup_reachable, stableSort_isStdSort, by decide, by decide, by decide⟩

/-- C13: the distance overflows: on the reachable database holding
`("a", 2147483647)` and `("b", 0)`, `findKNearestKeys(-1, 1)` computes the
distance `-2147483648` for `a` and `1` for `b` and returns `a`, although the
stored record `b`, which is not returned, is nearer to the target. -/
theorem findKNearestKeys_overflow :
    IndexedDatabase.Reachable Sample.dbFar ∧
      IndexedDatabase.IsStdSort IndexedDatabase.stableSort ∧
      IndexedDatabase.distance 2147483647 (-1) = -2147483648 ∧
      IndexedDatabase.distance 0 (-1) = 1 ∧
      Sample.dbFar.findKNearestKeys IndexedDatabase.stableSort (-1) 1 =
        [⟨"a", 2147483647⟩] ∧
      (⟨"b", 0⟩ : Record) ∈ Sample.dbFar.inorderTraversal ∧
      (⟨"b", 0⟩ : Record) ∉ Sample.dbFar.findKNearestKeys IndexedDatabase.stableSort (-1) 1 ∧
      ¬ (|(2147483647 : Int) - (-1)| ≤ |(0 : Int) - (-1)|) :=
  ⟨sample_dbFar_reachable, stableSort_isStdSort, by decide, by decide, by decide, by decide,
    by decide, by norm_num⟩

/-- C16: the inserts of `("a", 10)`, `("b", 20)`, `("c", 5)`, `("d", 6)`,
`("e", 15)`, in that order, on the empty database give a tree of height `3`;
`inorderTraversal()` has the values `[5, 6, 10, 15, 20]`, `rangeQuery(6, 15)` the
values `[6, 10, 15]`, and `findKNearestKeys(9, 2)` the values `[6, 10]`, whatever
conforming sort is used. -/
theorem concrete_scenario (sort : List (Int × Record) → List (Int × Record))
    (hs : IndexedDatabase.IsStdSort sort) :
    (((((IndexedDatabase.empty.insert ⟨"a", 10⟩).bind
          (fun db => db.insert ⟨"b", 20⟩)).bind
          (fun db => db.insert ⟨"c", 5⟩)).bind
          (fun db => db.insert ⟨"d", 6⟩)).bind
          (fun db => db.insert ⟨"e", 15⟩)) = some Sample.scenario ∧
      Sample.scenario.index.root.structHeight = 3 ∧
      height Sample.scenario.index.root = 3 ∧
      Sample.scenario.index.root.structHeight ≤ 3 ∧
      Sample.scenario.inorderTraversal.map Record.value = [5, 6, 10, 15, 20] ∧
      (Sample.scenario.rangeQuery 6 15).map Record.value = [6, 10, 15] ∧
      (Sample.scenario.findKNearestKeys sort 9 2).map Record.value = [6, 10] := by
  refine ⟨by decide, by decide, by decide, by decide, by decide, by decide, ?_⟩
  rw [findKNearestKeys_eq_stable sort hs Sample.scenario 9 2 (by decide)]
  decide

theorem concrete_scenario_witness :
    IndexedDatabase.IsStdSort IndexedDatabase.stableSort ∧
      (((((IndexedDatabase.empty.insert ⟨"a", 10⟩).bind
          (fun db => db.insert ⟨"b", 20⟩)).bind
          (fun db => db.insert ⟨"c", 5⟩)).bind
          (fun db => db.insert ⟨"d", 6⟩)).bind
          (fun db => db.insert ⟨"e", 15⟩)) = some Sample.scenario ∧
      Sample.scenario.index.root.structHeight = 3 ∧
      height Sample.scenario.index.root = 3 ∧
      Sample.scenario.index.root.structHeight ≤ 3 ∧
      Sample.scenario.inorderTraversal.map Record.value = [5, 6, 10, 15, 20] ∧
      (Sample.scenario.rangeQuery 6 15).map Record.value = [6, 10, 15] ∧
      (Sample.scenario.findKNearestKeys IndexedDatabase.stableSort 9 2).map Record.value =
        [6, 10] :=
  ⟨stableSort_isStdSort, concrete_scenario IndexedDatabase.stableSort stableSort_isStdSort⟩

/-- The contract of `std::sort` does not fix the order of ties: with a conforming
sort that puts the larger value first among equal distances,
`findKNearestKeys(9, 2)` on the reachable database holding the values `8` and
`10` returns the smaller value first, while the stable-sort description returns
the larger value first. -/
theorem findKNearestKeys_tie_counterexample :
    IndexedDatabase.Reachable Sample.dbTie ∧
      IndexedDatabase.IsStdSort IndexedDatabase.tiesDescendingSort ∧
      Sample.dbTie.findKNearestKeys IndexedDatabase.tiesDescendingSort 9 2 =
        [⟨"p", 8⟩, ⟨"q", 10⟩] ∧
      Sample.dbTie.findKNearestKeysSpec 9 2 = [⟨"q", 10⟩, ⟨"p", 8⟩] ∧
      Sample.dbTie.findKNearestKeys IndexedDatabase.tiesDescendingSort 9 2 ≠
        Sample.dbTie.findKNearestKeysSpec 9 2 :=
  ⟨sample_dbTie_reachable, tiesDescendingSort_isStdSort, by decide, by decide, by decide⟩

/-- C19: on every tree reachable by `insert` and `deleteNode` calls, `insert` and
`deleteNode` run to their end in the instrumented code, which stops as soon as a
rotation is called on an absent node or on a node without the required child, or
a case test reads an absent child: the instrumented insertion and deletion
return the results of `insertHelper` and `deleteNodeHelper`, and `insertHelper`
returns a tree. -/
theorem rotation_guards_unreachable (t : AVLTree) (record : Record) (key : String)
    (value : Int) (ht : AVLTree.Reachable t) :
    insertHelperChecked t.root record = insertHelper t.root record ∧
      (∃ t', insertHelperChecked t.root record = some t' ∧ t.insert record = some ⟨t'⟩) ∧
      deleteNodeHelperChecked t.root key value = some (t.deleteNode key value).root := by
  have ha := (reachable_inv ht).1
  have e := insertHelperChecked_eq record t.root ha
  obtain ⟨t', et', _, _⟩ := insertHelper_avl record t.root ha
  refine ⟨e, ⟨t', by rw [e, et'], by simp [AVLTree.insert, et']⟩, ?_⟩
  exact deleteNodeHelperChecked_eq t.root ha key value

theorem rotation_guards_unreachable_witness :
    AVLTree.Reachable Sample.t2 ∧
      insertHelperChecked Sample.t2.root ⟨"c", 3⟩ = insertHelper Sample.t2.root ⟨"c", 3⟩ ∧
      (∃ t', insertHelperChecked Sample.t2.root ⟨"c", 3⟩ = some t' ∧
        Sample.t2.insert ⟨"c", 3⟩ = some ⟨t'⟩) ∧
      deleteNodeHelperChecked Sample.t2.root "a" 1 = some (Sample.t2.deleteNode "a" 1).root :=
  ⟨sample_t2_reachable, rotation_guards_unreachable Sample.t2 ⟨"c", 3⟩ "a" 1 sample_t2_reachable⟩

set_option maxRecDepth 100000

/-- C20: the counter does go negative and below the length of the traversal:
`2^31` calls `insert(("a", 1))` on the empty database leave the one record in the
tree and wrap the 32-bit counter to `-2147483648`. -/
theorem counter_wraps_after_many_inserts :
    IndexedDatabase.empty.insertAll (List.replicate 2147483648 ⟨"a", 1⟩) =
        some Sample.dbWrapped ∧
      IndexedDatabase.Reachable Sample.dbWrapped ∧
      Sample.dbWrapped.countRecords = -2147483648 ∧
      Sample.dbWrapped.inorderTraversal = [⟨"a", 1⟩] ∧
      Sample.dbWrapped.countRecords < (Sample.dbWrapped.inorderTraversal.length : Int) ∧
      Sample.dbWrapped.countRecords < 0 :=
  ⟨insertAll_wraps, sample_dbWrapped_reachable, by decide, by decide, by decide, by decide⟩

end AVLDatabase
